import Mathlib

/-!
# Verification of the segmentation and export pipeline

A shallow embedding, over `ℚ`, of the cut-point planner, bitrate map,
auto-split safety net, export queue and batch coordinator of the
`ffmeg-UI` repository (`src/ffmpeg/silence.rs`, `src/app.rs`,
`src/export_queue.rs`).  Rust `f64` values are modelled as exact
rationals; `u64`/`usize` as `Nat` (no claim in this development depends
on wrap-around, so the `% 2^64` reductions are omitted); the Rust
`as usize` / `as u64` casts of non-negative floats are `Int.toNat ∘ floor`
(the cast saturates at zero for negative values, which `Int.toNat`
reproduces).  The `while` loops of the source are embedded with an
explicit fuel argument, returning `none` when the fuel runs out, so that
both termination and non-termination of the source loops are expressible.
-/

/-- A detected silence interval (`SilenceInterval` in `silence.rs`);
`end` is a Lean keyword, so the field is named `end_`. -/
structure SilenceInterval where
  start : ℚ
  end_ : ℚ
deriving DecidableEq, Repr

/-- `SilenceInterval::midpoint`. -/
def SilenceInterval.midpoint (s : SilenceInterval) : ℚ :=
  (s.start + s.end_) / 2

/-- Rust's `Iterator::min_by` over a distance function: the first element
attaining the minimum is kept (later elements replace the accumulator
only on a strictly smaller distance). -/
def minByDist (f : SilenceInterval → ℚ) (l : List SilenceInterval) :
    Option SilenceInterval :=
  l.foldl
    (fun acc x =>
      match acc with
      | none => some x
      | some m => if f x < f m then some x else some m)
    none

/-- `x.floor() as usize` / `as u64` on a non-negative-or-saturating cast. -/
def floorToNat (q : ℚ) : Nat := (⌊q⌋).toNat

/-- `x.ceil() as usize` with saturation at zero. -/
def ceilToNat (q : ℚ) : Nat := (⌈q⌉).toNat

/-- `(max_bytes as f64 * 0.98) as u64` — the 2% safety margin. -/
def effectiveMaxBytes (max_bytes : Nat) : Nat :=
  floorToNat ((max_bytes : ℚ) * 49 / 50)

/-- Cumulative byte curve (`BitrateMap` in `silence.rs`). -/
structure BitrateMap where
  cumulative_bytes : List Nat
  duration : ℚ
deriving DecidableEq, Repr

/-- `BitrateMap::is_empty`. -/
def BitrateMap.is_empty (bm : BitrateMap) : Bool :=
  bm.cumulative_bytes.isEmpty

/-- `BitrateMap::bytes_between`.  Indices are clamped with
`.min(len.saturating_sub(1))` exactly as in the source; the final
subtraction is `saturating_sub`, which is `Nat` subtraction. -/
def BitrateMap.bytes_between (bm : BitrateMap) (start end_ : ℚ) : Nat :=
  let start_sec := min (floorToNat start) (bm.cumulative_bytes.length - 1)
  let end_sec := min (ceilToNat end_) (bm.cumulative_bytes.length - 1)
  bm.cumulative_bytes.getD end_sec 0 - bm.cumulative_bytes.getD start_sec 0

/-- The linear forward scan of `BitrateMap::time_for_bytes`: find the
first index `i`, starting at `i0` and taking `steps` further indices,
with `cumulative_bytes[i] - base ≥ target`. -/
def tfbScan (cum : List Nat) (base target : Nat) : Nat → Nat → Option Nat
  | _, 0 => none
  | i, steps + 1 =>
    if target ≤ cum.getD i 0 - base then some i
    else tfbScan cum base target (i + 1) steps

/-- `BitrateMap::time_for_bytes`: scan from `floor(start_time)+1` to the
end of the curve; fall back to `duration` if the budget is never
reached. -/
def BitrateMap.time_for_bytes (bm : BitrateMap) (start_time : ℚ)
    (target_bytes : Nat) : ℚ :=
  let start_sec := min (floorToNat start_time) (bm.cumulative_bytes.length - 1)
  let base := bm.cumulative_bytes.getD start_sec 0
  match tfbScan bm.cumulative_bytes base target_bytes (start_sec + 1)
      (bm.cumulative_bytes.length - (start_sec + 1)) with
  | some i => (i : ℚ)
  | none => bm.duration

/-- Index-checked variant of `bytes_between`, used to express that every
array index the source computes is in bounds: `none` means an
out-of-bounds access (a Rust panic). -/
def BitrateMap.bytes_between_checked (bm : BitrateMap) (start end_ : ℚ) :
    Option Nat :=
  let start_sec := min (floorToNat start) (bm.cumulative_bytes.length - 1)
  let end_sec := min (ceilToNat end_) (bm.cumulative_bytes.length - 1)
  match bm.cumulative_bytes.get? end_sec, bm.cumulative_bytes.get? start_sec with
  | some e, some s => some (e - s)
  | _, _ => none

/-- Index-checked variant of the `time_for_bytes` scan. -/
def tfbScanChecked (cum : List Nat) (base target : Nat) :
    Nat → Nat → Option (Option Nat)
  | _, 0 => some none
  | i, steps + 1 =>
    match cum.get? i with
    | none => none
    | some v =>
      if target ≤ v - base then some (some i)
      else tfbScanChecked cum base target (i + 1) steps

/-- Index-checked variant of `time_for_bytes`: `none` means an
out-of-bounds access. -/
def BitrateMap.time_for_bytes_checked (bm : BitrateMap) (start_time : ℚ)
    (target_bytes : Nat) : Option ℚ :=
  let start_sec := min (floorToNat start_time) (bm.cumulative_bytes.length - 1)
  match bm.cumulative_bytes.get? start_sec with
  | none => none
  | some base =>
    match tfbScanChecked bm.cumulative_bytes base target_bytes (start_sec + 1)
        (bm.cumulative_bytes.length - (start_sec + 1)) with
    | none => none
    | some (some i) => some ((i : ℚ))
    | some none => some bm.duration

/-- The silence-candidate search shared by both planners: the silence
whose midpoint lies in `[window_start, window_end]` and is closest to
`ideal_end` (first wins on ties, as Rust's `min_by`). -/
def bestSilence (silences : List SilenceInterval)
    (window_start window_end ideal_end : ℚ) : Option SilenceInterval :=
  minByDist (fun s => |s.midpoint - ideal_end|)
    (silences.filter fun s =>
      decide (window_start ≤ s.midpoint) && decide (s.midpoint ≤ window_end))

/-- The cut decision of one `compute_cut_points` iteration (`silence.rs`
lines 117-140): the best in-window silence midpoint if it is reachable
without exceeding `max_duration` from the cursor, else the ideal end. -/
def cutChoose (duration max_duration tolerance_secs : ℚ)
    (silences : List SilenceInterval) (cursor : ℚ) : ℚ :=
  let ideal_end := min (cursor + max_duration) duration
  let window_start := max (ideal_end - tolerance_secs) (cursor + 1)
  let window_end := min (ideal_end + tolerance_secs) duration
  match bestSilence silences window_start window_end ideal_end with
  | some s =>
    if s.midpoint - cursor ≤ max_duration then s.midpoint else ideal_end
  | none => ideal_end

/-- The `while` loop of `compute_cut_points`, with fuel.  Running out of
fuel with the loop condition still true yields `none`; the source checks
the condition before each iteration, so the zero-fuel case still
returns `some segments` when the condition is already false. -/
def cutLoop (duration max_duration tolerance_secs : ℚ)
    (silences : List SilenceInterval) :
    Nat → ℚ → List (ℚ × ℚ) → Option (List (ℚ × ℚ))
  | 0, cursor, segments =>
    if cursor < duration - 1/10 then none else some segments
  | fuel + 1, cursor, segments =>
    if cursor < duration - 1/10 then
      if duration - 1/10 ≤ min (cursor + max_duration) duration then
        some (segments ++ [(cursor, duration)])
      else
        cutLoop duration max_duration tolerance_secs silences fuel
          (cutChoose duration max_duration tolerance_secs silences cursor)
          (segments ++
            [(cursor, cutChoose duration max_duration tolerance_secs silences cursor)])
    else some segments

/-- `compute_cut_points` (`silence.rs`): uniform-bitrate strategy.
`max_duration` of the source is written out as
`effective_max_bytes / (bitrate_bps / 8)`. -/
def compute_cut_points (fuel : Nat) (duration bitrate_bps : ℚ)
    (max_bytes : Nat) (tolerance_secs : ℚ)
    (silences : List SilenceInterval) : Option (List (ℚ × ℚ)) :=
  if duration ≤ 0 ∨ bitrate_bps ≤ 0 ∨ max_bytes = 0 then
    some [(0, max duration 0)]
  else if duration ≤ (effectiveMaxBytes max_bytes : ℚ) / (bitrate_bps / 8) then
    some [(0, duration)]
  else
    cutLoop duration ((effectiveMaxBytes max_bytes : ℚ) / (bitrate_bps / 8))
      tolerance_secs silences fuel 0 []

/-- The cut decision of one `compute_cut_points_accurate` iteration
(`silence.rs` lines 336-367), including the byte-budget re-check of a
silence candidate and the 1-second minimum-advance safety net. -/
def accurateChoose (duration : ℚ) (effective : Nat) (tolerance_secs : ℚ)
    (silences : List SilenceInterval) (bm : BitrateMap) (cursor : ℚ) : ℚ :=
  let ideal_end := min (bm.time_for_bytes cursor effective) duration
  let window_start := max (ideal_end - tolerance_secs) (cursor + 1)
  let window_end := min (ideal_end + tolerance_secs) duration
  let cut_point :=
    match bestSilence silences window_start window_end ideal_end with
    | some s =>
      if bm.bytes_between cursor s.midpoint ≤ effective then s.midpoint
      else ideal_end
    | none => ideal_end
  if cut_point ≤ cursor + 1/2 then min (cursor + 1) duration else cut_point

/-- The `while` loop of `compute_cut_points_accurate`, with fuel. -/
def accurateLoop (duration : ℚ) (effective : Nat) (tolerance_secs : ℚ)
    (silences : List SilenceInterval) (bm : BitrateMap) :
    Nat → ℚ → List (ℚ × ℚ) → Option (List (ℚ × ℚ))
  | 0, cursor, segments =>
    if cursor < duration - 1/10 then none else some segments
  | fuel + 1, cursor, segments =>
    if cursor < duration - 1/10 then
      if duration - 1/10 ≤ min (bm.time_for_bytes cursor effective) duration then
        some (segments ++ [(cursor, duration)])
      else
        accurateLoop duration effective tolerance_secs silences bm fuel
          (accurateChoose duration effective tolerance_secs silences bm cursor)
          (segments ++
            [(cursor, accurateChoose duration effective tolerance_secs silences bm cursor)])
    else some segments

/-- `compute_cut_points_accurate` (`silence.rs`): bitrate-map strategy. -/
def compute_cut_points_accurate (fuel : Nat) (duration : ℚ)
    (max_bytes : Nat) (tolerance_secs : ℚ)
    (silences : List SilenceInterval) (bm : BitrateMap) :
    Option (List (ℚ × ℚ)) :=
  if duration ≤ 0 ∨ max_bytes = 0 ∨ bm.is_empty then
    some [(0, max duration 0)]
  else if bm.bytes_between 0 duration ≤ effectiveMaxBytes max_bytes then
    some [(0, duration)]
  else
    accurateLoop duration (effectiveMaxBytes max_bytes) tolerance_secs
      silences bm fuel 0 []

/-- The per-file segment record backing the editing surface.  Modelled
from the spec: `SplitSegment` is declared in a UI module that is not
among the provided sources; the spec (§3 "Segment") fixes its fields
`{start_time, end_time, label, enabled, estimated_size_bytes}`. -/
structure SplitSegment where
  start_time : ℚ
  end_time : ℚ
  label : String
  enabled : Bool
  estimated_size_bytes : Nat
deriving DecidableEq, Repr

/-- Modelled from the spec: `SplitSegment::new(start, end, label)` — the
constructor used by `auto_split_segment` and `poll_batch`; a fresh
segment is enabled with a zero size estimate (both fields are
overwritten by every caller in scope). -/
def SplitSegment.new (start end_ : ℚ) (label : String) : SplitSegment :=
  { start_time := start, end_time := end_, label := label,
    enabled := true, estimated_size_bytes := 0 }

/-- Modelled from the spec: `SplitSegment::duration` — the segment's
length in seconds (`end_time - start_time`, spec §3 invariant
`end_time > start_time`). -/
def SplitSegment.seg_duration (s : SplitSegment) : ℚ :=
  s.end_time - s.start_time

/-- One cut decision of the bitrate-map branch of `auto_split_segment`
(`app.rs` lines 455-466): walk to the byte budget, clamp to the segment
end, force a minimum 1-second advance, and absorb a final sliver shorter
than one second. -/
def splitCutEnd (bm : BitrateMap) (effective : Nat) (end_time cursor : ℚ) : ℚ :=
  let cut := min (bm.time_for_bytes cursor effective) end_time
  let cut := if cut ≤ cursor + 1/2 then min (cursor + 1) end_time else cut
  if end_time - cut < 1 then end_time else cut

/-- The sub-segment pushed by one iteration of the bitrate-map branch of
`auto_split_segment`. -/
def splitSub (seg : SplitSegment) (bm : BitrateMap) (cursor end_ : ℚ)
    (part : Nat) : SplitSegment :=
  { start_time := cursor, end_time := end_,
    label := seg.label ++ " (" ++ toString part ++ "/...)",
    enabled := seg.enabled,
    estimated_size_bytes := bm.bytes_between cursor end_ }

/-- The `while` loop of the bitrate-map branch of `auto_split_segment`,
with fuel. -/
def autoSplitLoop (seg : SplitSegment) (effective : Nat) (bm : BitrateMap) :
    Nat → ℚ → Nat → List SplitSegment → Option (List SplitSegment)
  | 0, cursor, _, acc =>
    if cursor < seg.end_time - 1/10 then none else some acc
  | fuel + 1, cursor, part, acc =>
    if cursor < seg.end_time - 1/10 then
      if seg.end_time - 1/10 ≤ splitCutEnd bm effective seg.end_time cursor then
        some (acc ++
          [splitSub seg bm cursor (splitCutEnd bm effective seg.end_time cursor) part])
      else
        autoSplitLoop seg effective bm fuel
          (splitCutEnd bm effective seg.end_time cursor) (part + 1)
          (acc ++
            [splitSub seg bm cursor (splitCutEnd bm effective seg.end_time cursor) part])
    else some acc

/-- The relabelling pass of `auto_split_segment`: once the total part
count is known, every label becomes `"{label} (k/N)"`. -/
def relabelParts (base : String) (l : List SplitSegment) : List SplitSegment :=
  l.enum.map fun p =>
    { p.2 with
      label := base ++ " (" ++ toString (p.1 + 1) ++ "/" ++
        toString l.length ++ ")" }

/-- The uniform-bitrate fallback branch of `auto_split_segment`. -/
def uniformSplit (seg : SplitSegment) (bytes_per_second max_duration : ℚ)
    (num_parts : Nat) : List SplitSegment :=
  (List.range num_parts).map fun i =>
    let start := seg.start_time + (i : ℚ) * max_duration
    let end_ := min (seg.start_time + ((i : ℚ) + 1) * max_duration) seg.end_time
    { start_time := start, end_time := end_,
      label := seg.label ++ " (" ++ toString (i + 1) ++ "/" ++
        toString num_parts ++ ")",
      enabled := seg.enabled,
      estimated_size_bytes := floorToNat (bytes_per_second * (end_ - start)) }

/-- The `real_size` computed by `auto_split_segment`: the bitrate-map
byte count when a map is available, the stored estimate otherwise. -/
def auto_split_real_size (segment : SplitSegment)
    (bitrate_map : Option BitrateMap) : Nat :=
  match bitrate_map with
  | some bm => bm.bytes_between segment.start_time segment.end_time
  | none => segment.estimated_size_bytes

/-- The oversized path of `auto_split_segment`: the bitrate-map walk
when a map is available, the uniform fallback otherwise. -/
def auto_split_oversized (fuel : Nat) (segment : SplitSegment)
    (max_bytes : Nat) (bitrate_bps : ℚ) :
    Option BitrateMap → Option (List SplitSegment)
  | some bm =>
    match autoSplitLoop segment (effectiveMaxBytes max_bytes) bm fuel
        segment.start_time 1 [] with
    | some result => some (relabelParts segment.label result)
    | none => none
  | none =>
    if bitrate_bps / 8 ≤ 0 then some [segment]
    else
      some (uniformSplit segment (bitrate_bps / 8)
        ((effectiveMaxBytes max_bytes : ℚ) / (bitrate_bps / 8))
        (ceilToNat (segment.seg_duration /
          ((effectiveMaxBytes max_bytes : ℚ) / (bitrate_bps / 8)))))

/-- `auto_split_segment` (`app.rs`): re-split an oversized segment.
The `f64` division `total_duration / max_duration` of the fallback
branch is exact here, so the `max_bytes = 1` corner (where
`effective = 0` makes that division `x / 0`, which is `+∞` in `f64`
but `0` in `ℚ`) is outside the scope of the theorems below. -/
def auto_split_segment (fuel : Nat) (segment : SplitSegment)
    (max_bytes : Nat) (bitrate_bps : ℚ) (bitrate_map : Option BitrateMap) :
    Option (List SplitSegment) :=
  if max_bytes = 0 then some [segment]
  else if auto_split_real_size segment bitrate_map ≤ max_bytes then
    some [segment]
  else auto_split_oversized fuel segment max_bytes bitrate_bps bitrate_map

/-- Job status (`export_queue.rs`). -/
inductive JobStatus where
  | Pending
  | Running
  | Completed
  | Failed (reason : String)
deriving DecidableEq, Repr

/-- Modelled from the spec: the `TrimMode` enum is declared in a UI
module not among the provided sources; its three variants are named by
the in-scope callers (`main_window.rs`). -/
inductive TrimMode where
  | Lossless
  | Precise
  | HighQuality
deriving DecidableEq, Repr

/-- Export operation (`export_queue.rs`). -/
inductive ExportOperation where
  | Trim (start end_ : ℚ) (mode : TrimMode)
  | Concat (inputs : List String)
deriving DecidableEq, Repr

/-- A single export job (`export_queue.rs`); paths are modelled as
strings, `progress: f32` as `ℚ`, `id: u32` as `Nat` (no claim depends
on id wrap-around). -/
structure ExportJob where
  id : Nat
  input : String
  output : String
  operation : ExportOperation
  status : JobStatus
  progress : ℚ
  segment_label : String
deriving DecidableEq, Repr

/-- `ExportJob::new_trim`. -/
def ExportJob.new_trim (id : Nat) (input output : String) (start end_ : ℚ)
    (mode : TrimMode) : ExportJob :=
  { id := id, input := input, output := output,
    operation := ExportOperation.Trim start end_ mode,
    status := JobStatus.Pending, progress := 0, segment_label := "" }

/-- The export queue (`export_queue.rs`). -/
structure ExportQueue where
  jobs : List ExportJob
  next_id : Nat
  is_processing : Bool
deriving DecidableEq, Repr

/-- `ExportQueue::new`. -/
def ExportQueue.new : ExportQueue :=
  { jobs := [], next_id := 0, is_processing := false }

/-- `ExportQueue::add_trim`: returns the updated queue and the fresh id. -/
def ExportQueue.add_trim (q : ExportQueue) (input output : String)
    (start end_ : ℚ) (mode : TrimMode) : ExportQueue × Nat :=
  let id := q.next_id
  ({ q with
      jobs := q.jobs ++ [ExportJob.new_trim id input output start end_ mode],
      next_id := q.next_id + 1 },
    id)

/-- `ExportQueue::cancel_all`: every `Pending` job becomes
`Failed("Cancelled")`; all other jobs are untouched. -/
def ExportQueue.cancel_all (q : ExportQueue) : ExportQueue :=
  { q with
    jobs := q.jobs.map fun j =>
      if j.status = JobStatus.Pending then
        { j with status := JobStatus.Failed ("Cancelled") }
      else j }

/-- `ExportQueue::has_pending`. -/
def ExportQueue.has_pending (q : ExportQueue) : Bool :=
  q.jobs.any fun j => decide (j.status = JobStatus.Pending)

/-- `ExportQueue::pending_count`. -/
def ExportQueue.pending_count (q : ExportQueue) : Nat :=
  (q.jobs.filter fun j => decide (j.status = JobStatus.Pending)).length

/-- The fields of `MediaInfo` (`probe.rs`) consumed by the batch
coordinator (the video/codec metadata fields play no role here). -/
structure MediaInfo where
  duration : ℚ
  video_bitrate : Option Nat
  audio_bitrate : Option Nat
  file_size : Nat
deriving DecidableEq, Repr

/-- `MediaFile` (`media.rs`): a path with its probed metadata. -/
structure MediaFile where
  path : String
  info : MediaInfo
deriving DecidableEq, Repr

/-- `FFmpegApp::compute_bitrate` (`app.rs`). -/
def compute_bitrate (info : MediaInfo) : ℚ :=
  match info.video_bitrate, info.audio_bitrate with
  | some vbr, some abr => ((vbr + abr : Nat) : ℚ)
  | some vbr, none => (vbr : ℚ)
  | none, some abr => (abr : ℚ)
  | none, none =>
    if 0 < info.duration then (info.file_size : ℚ) / info.duration * 8
    else 0

/-- Modelled from the spec: `crate::utils::estimate_segment_size` is
declared in a utils module not among the provided sources; per the
spec's uniform-rate fallback (§4.2, §4.4) it estimates
`bitrate/8 * (end - start)` bytes from the probed metadata. -/
def estimate_segment_size (info : MediaInfo) (start end_ : ℚ) : Nat :=
  floorToNat (compute_bitrate info / 8 * (end_ - start))

/-- The segment list `poll_batch` derives for one file from one
detection result (`app.rs` lines 856-866). -/
def segmentsForFile (fuel : Nat) (info : MediaInfo) (max_bytes : Nat)
    (silences : List SilenceInterval) : Option (List SplitSegment) :=
  match compute_cut_points fuel info.duration (compute_bitrate info)
      max_bytes 30 silences with
  | none => none
  | some cut_points =>
    some (cut_points.enum.map fun p =>
      { SplitSegment.new p.2.1 p.2.2 ("Segment " ++ toString (p.1 + 1)) with
        estimated_size_bytes := estimate_segment_size info p.2.1 p.2.2 })

/-- `HashMap::insert` on the per-file segment map, modelled as an
association list: overwrite the entry if the key is present, append
otherwise. -/
def insertSegMap (m : List (String × List SplitSegment)) (k : String)
    (v : List SplitSegment) : List (String × List SplitSegment) :=
  if m.any fun p => decide (p.1 = k) then
    m.map fun p => if p.1 = k then (k, v) else p
  else m ++ [(k, v)]

/-- Lookup in the per-file segment map. -/
def lookupSegMap (m : List (String × List SplitSegment)) (k : String) :
    Option (List SplitSegment) :=
  (m.find? fun p => decide (p.1 = k)).map Prod.snd

/-- The aggregation loop of `poll_batch` (`app.rs` lines 851-870): for
each `(file_idx, silences)` result, plan the file's segments and store
them keyed by path; indices without a file are skipped (`continue`). -/
def aggregateResults (fuel : Nat) (files : List MediaFile) (max_bytes : Nat) :
    List (Nat × List SilenceInterval) →
    List (String × List SplitSegment) → Nat →
    Option (List (String × List SplitSegment) × Nat)
  | [], m, total => some (m, total)
  | (idx, silences) :: rest, m, total =>
    match files.get? idx with
    | none => aggregateResults fuel files max_bytes rest m total
    | some file =>
      match segmentsForFile fuel file.info max_bytes silences with
      | none => none
      | some segs =>
        aggregateResults fuel files max_bytes rest
          (insertSegMap m file.path segs) (total + segs.length)

/-- The slice of `FFmpegApp` state that the batch-coordination methods
read and write.  `export_invocations` counts calls of
`export_all_files`: that method only queues jobs and is out of the
claims' scope, so it is observed abstractly through this counter. -/
structure BatchAppState where
  files : List MediaFile
  selected_file_index : Option Nat
  segments : List SplitSegment
  selected_segment : Option Nat
  file_segments : List (String × List SplitSegment)
  max_size_mb : ℚ
  batch_running : Bool
  batch_total : Nat
  batch_results : List (Nat × List SilenceInterval)
  batch_status : String
  batch_auto_export : Bool
  status_message : String
  export_invocations : Nat
deriving DecidableEq, Repr

/-- `FFmpegApp::selected_file`. -/
def BatchAppState.selected_file (s : BatchAppState) : Option MediaFile :=
  s.selected_file_index.bind fun i => s.files.get? i

/-- `FFmpegApp::save_current_segments`. -/
def save_current_segments (s : BatchAppState) : BatchAppState :=
  match s.selected_file with
  | some file =>
    { s with file_segments := insertSegMap s.file_segments file.path s.segments }
  | none => s

/-- `FFmpegApp::restore_segments_for_current_file`. -/
def restore_segments_for_current_file (s : BatchAppState) : BatchAppState :=
  match s.selected_file with
  | some file =>
    match lookupSegMap s.file_segments file.path with
    | some segs =>
      { s with segments := segs,
               selected_segment := if segs.isEmpty then none else some 0 }
    | none => s
  | none => s

/-- The abstract observation of `FFmpegApp::export_all_files`: the
batch claims only observe that the export step was triggered. -/
def export_all_files_trigger (s : BatchAppState) : BatchAppState :=
  { s with export_invocations := s.export_invocations + 1 }

/-- `FFmpegApp::start_batch_auto_cut` (state transitions only; the
spawned detection tasks deliver their results through
`deliver_batch_result`). -/
def start_batch_auto_cut (s : BatchAppState) : BatchAppState :=
  if s.files.isEmpty then { s with status_message := "No files loaded" }
  else if s.max_size_mb ≤ 0 then
    { s with status_message := "Set max size > 0 for batch Auto-Cut" }
  else
    let s1 := save_current_segments s
    let msg := "Analyzing 0/" ++ toString s1.files.length ++ "..."
    { s1 with
      batch_total := s1.files.length,
      batch_running := true,
      batch_results := [],
      batch_status := msg,
      status_message := msg }

/-- One background detection task completing: it appends
`(file_index, silences)` to the shared results collection. -/
def deliver_batch_result (s : BatchAppState)
    (r : Nat × List SilenceInterval) : BatchAppState :=
  { s with batch_results := s.batch_results ++ [r] }

/-- The completion message of `poll_batch`. -/
def poll_batch_done_msg (total_files total_segments : Nat) : String :=
  "Batch done: " ++ toString total_files ++ " files, " ++
    toString total_segments ++ " total segments"

/-- The tail of `poll_batch` after a successful aggregation (`app.rs`
lines 872-885): clear the run state, store the new per-file map, restore
the current file's segments, publish the status message, and — exactly
when the batch was started in process-and-export mode — clear the
one-shot flag and trigger the export step. -/
def poll_batch_finish (s : BatchAppState)
    (fs : List (String × List SplitSegment)) (total : Nat) : BatchAppState :=
  if s.batch_auto_export then
    export_all_files_trigger
      { (restore_segments_for_current_file
          { s with
              batch_running := false,
              batch_results := [],
              file_segments := fs }) with
        batch_status := poll_batch_done_msg s.batch_total total,
        status_message := poll_batch_done_msg s.batch_total total,
        batch_auto_export := false }
  else
    { (restore_segments_for_current_file
        { s with
            batch_running := false,
            batch_results := [],
            file_segments := fs }) with
      batch_status := poll_batch_done_msg s.batch_total total,
      status_message := poll_batch_done_msg s.batch_total total }

/-- `FFmpegApp::poll_batch` (`app.rs`).  Returns `none` only when the
planner inside the aggregation runs out of fuel. -/
def poll_batch (fuel : Nat) (s : BatchAppState) : Option BatchAppState :=
  if s.batch_running = false then some s
  else if s.batch_results.length < s.batch_total then
    some { s with
      batch_status := "Analyzing " ++ toString s.batch_results.length ++
        "/" ++ toString s.batch_total ++ "..." }
  else
    match aggregateResults fuel s.files
        (floorToNat (s.max_size_mb * 1024 * 1024)) s.batch_results
        s.file_segments 0 with
    | none => none
    | some (fs, total) => some (poll_batch_finish s fs total)

/-- `FFmpegApp::batch_process_and_export`. -/
def batch_process_and_export (s : BatchAppState) : BatchAppState :=
  start_batch_auto_cut { s with batch_auto_export := true }

/-- The pure arithmetic core of `splitCutEnd`, with the
`time_for_bytes` value abstracted as `T`. -/
def cutEndStep (T E c : ℚ) : ℚ :=
  let cut := min T E
  let cut := if cut ≤ c + 1/2 then min (c + 1) E else cut
  if E - cut < 1 then E else cut

/-- Specification predicate: the segment list is contiguous and starts
at `c` (each segment starts where the previous one ended). -/
def contiguousFrom : ℚ → List (ℚ × ℚ) → Prop
  | _, [] => True
  | c, p :: rest => p.1 = c ∧ contiguousFrom p.2 rest

/-! ## Helper lemmas -/

theorem minByDist_foldl_mem (f : SilenceInterval → ℚ) :
    ∀ (l : List SilenceInterval) (acc : Option SilenceInterval)
      (x : SilenceInterval),
      l.foldl
        (fun acc x =>
          match acc with
          | none => some x
          | some m => if f x < f m then some x else some m) acc = some x →
      acc = some x ∨ x ∈ l := by
  intro l
  induction l with
  | nil => intro acc x h; exact Or.inl h
  | cons a l ih =>
    intro acc x h
    rcases ih _ x h with h' | h'
    · match acc with
      | none =>
        simp only at h'
        exact Or.inr (by simp [Option.some_inj.mp h'])
      | some m =>
        simp only at h'
        by_cases hc : f a < f m
        · rw [if_pos hc] at h'
          exact Or.inr (by simp [Option.some_inj.mp h'])
        · rw [if_neg hc] at h'
          exact Or.inl h'
    · exact Or.inr (List.mem_cons_of_mem _ h')

theorem minByDist_mem {f : SilenceInterval → ℚ} {l : List SilenceInterval}
    {x : SilenceInterval} (h : minByDist f l = some x) : x ∈ l := by
  rcases minByDist_foldl_mem f l none x h with h' | h'
  · exact absurd h' (by simp)
  · exact h'

theorem bestSilence_mem {sil : List SilenceInterval} {ws we ie : ℚ}
    {x : SilenceInterval} (h : bestSilence sil ws we ie = some x) :
    x ∈ sil ∧ ws ≤ x.midpoint ∧ x.midpoint ≤ we := by
  have hx := minByDist_mem h
  rw [List.mem_filter] at hx
  refine ⟨hx.1, ?_, ?_⟩
  · have := hx.2
    simp only [Bool.and_eq_true, decide_eq_true_eq] at this
    exact this.1
  · have := hx.2
    simp only [Bool.and_eq_true, decide_eq_true_eq] at this
    exact this.2

/-! ## Properties of the per-iteration cut decisions -/

/-- When the break test fails, the ideal end of the uniform strategy is
exactly `cursor + max_duration` and lies strictly below
`duration - 0.1`. -/
theorem uniform_ideal_end (d md cursor : ℚ)
    (hnb : ¬ (d - 1/10 ≤ min (cursor + md) d)) :
    min (cursor + md) d = cursor + md ∧ cursor + md < d - 1/10 := by
  push_neg at hnb
  rcases min_cases (cursor + md) d with ⟨h1, _⟩ | ⟨h1, _⟩
  · exact ⟨h1, by rw [h1] at hnb; exact hnb⟩
  · exfalso; rw [h1] at hnb; linarith

/-- In a non-break iteration the uniform cut decision advances the
cursor by at least `min max_duration 1`. -/
theorem cutChoose_advance (d md tol : ℚ) (sil : List SilenceInterval)
    (cursor : ℚ) (hnb : ¬ (d - 1/10 ≤ min (cursor + md) d)) :
    cursor + min md 1 ≤ cutChoose d md tol sil cursor := by
  obtain ⟨hie, _⟩ := uniform_ideal_end d md cursor hnb
  rw [cutChoose]
  simp only [hie]
  cases hbs : bestSilence sil (max (cursor + md - tol) (cursor + 1))
      (min (cursor + md + tol) d) (cursor + md) with
  | none =>
    have : min md 1 ≤ md := min_le_left _ _
    simp only; linarith
  | some s =>
    simp only
    by_cases hacc : s.midpoint - cursor ≤ md
    · rw [if_pos hacc]
      have hmem := bestSilence_mem hbs
      have h1 : cursor + 1 ≤ s.midpoint := le_trans (le_max_right _ _) hmem.2.1
      have : min md 1 ≤ 1 := min_le_right _ _
      linarith
    · rw [if_neg hacc]
      have : min md 1 ≤ md := min_le_left _ _
      linarith

/-- In a non-break iteration the uniform cut decision stays strictly
below `duration - 0.1` (an accepted silence midpoint is capped by
`cursor + max_duration`). -/
theorem cutChoose_lt (d md tol : ℚ) (sil : List SilenceInterval)
    (cursor : ℚ) (hnb : ¬ (d - 1/10 ≤ min (cursor + md) d)) :
    cutChoose d md tol sil cursor < d - 1/10 := by
  obtain ⟨hie, hlt⟩ := uniform_ideal_end d md cursor hnb
  rw [cutChoose]
  simp only [hie]
  cases hbs : bestSilence sil (max (cursor + md - tol) (cursor + 1))
      (min (cursor + md + tol) d) (cursor + md) with
  | none => simpa using hlt
  | some s =>
    simp only
    by_cases hacc : s.midpoint - cursor ≤ md
    · rw [if_pos hacc]; linarith
    · rw [if_neg hacc]; exact hlt

/-- The accurate cut decision never exceeds `duration`. -/
theorem accurateChoose_le (d : ℚ) (eff : Nat) (tol : ℚ)
    (sil : List SilenceInterval) (bm : BitrateMap) (cursor : ℚ) :
    accurateChoose d eff tol sil bm cursor ≤ d ∨
      accurateChoose d eff tol sil bm cursor ≤
        min (bm.time_for_bytes cursor eff) d + tol := by
  rw [accurateChoose]
  set ie := min (bm.time_for_bytes cursor eff) d with hie
  cases hbs : bestSilence sil (max (ie - tol) (cursor + 1)) (min (ie + tol) d)
      ie with
  | none =>
    simp only
    by_cases hf : ie ≤ cursor + 1/2
    · rw [if_pos hf]; exact Or.inl (min_le_right _ _)
    · rw [if_neg hf]; exact Or.inl (min_le_right _ _)
  | some s =>
    simp only
    by_cases hacc : bm.bytes_between cursor s.midpoint ≤ eff
    · rw [if_pos hacc]
      by_cases hf : s.midpoint ≤ cursor + 1/2
      · rw [if_pos hf]; exact Or.inl (min_le_right _ _)
      · rw [if_neg hf]
        have hmem := bestSilence_mem hbs
        exact Or.inl (le_trans hmem.2.2 (min_le_right _ _))
    · rw [if_neg hacc]
      by_cases hf : ie ≤ cursor + 1/2
      · rw [if_pos hf]; exact Or.inl (min_le_right _ _)
      · rw [if_neg hf]; exact Or.inl (min_le_right _ _)

/-- The accurate cut decision is at most `duration`. -/
theorem accurateChoose_le_duration (d : ℚ) (eff : Nat) (tol : ℚ)
    (sil : List SilenceInterval) (bm : BitrateMap) (cursor : ℚ) :
    accurateChoose d eff tol sil bm cursor ≤ d := by
  rw [accurateChoose]
  set ie := min (bm.time_for_bytes cursor eff) d with hie
  have hied : ie ≤ d := min_le_right _ _
  cases hbs : bestSilence sil (max (ie - tol) (cursor + 1)) (min (ie + tol) d)
      ie with
  | none =>
    simp only
    by_cases hf : ie ≤ cursor + 1/2
    · rw [if_pos hf]; exact min_le_right _ _
    · rw [if_neg hf]; exact hied
  | some s =>
    simp only
    have hmem := bestSilence_mem hbs
    have hsd : s.midpoint ≤ d := le_trans hmem.2.2 (min_le_right _ _)
    by_cases hacc : bm.bytes_between cursor s.midpoint ≤ eff
    · rw [if_pos hacc]
      by_cases hf : s.midpoint ≤ cursor + 1/2
      · rw [if_pos hf]; exact min_le_right _ _
      · rw [if_neg hf]; exact hsd
    · rw [if_neg hacc]
      by_cases hf : ie ≤ cursor + 1/2
      · rw [if_pos hf]; exact min_le_right _ _
      · rw [if_neg hf]; exact hied

/-- The accurate cut decision advances the cursor by more than half a
second, or jumps directly to `duration`. -/
theorem accurateChoose_advance (d : ℚ) (eff : Nat) (tol : ℚ)
    (sil : List SilenceInterval) (bm : BitrateMap) (cursor : ℚ) :
    cursor + 1/2 < accurateChoose d eff tol sil bm cursor ∨
      accurateChoose d eff tol sil bm cursor = d := by
  rw [accurateChoose]
  set ie := min (bm.time_for_bytes cursor eff) d with hie
  have hforce : ∀ cp : ℚ,
      cursor + 1/2 < (if cp ≤ cursor + 1/2 then min (cursor + 1) d else cp) ∨
        (if cp ≤ cursor + 1/2 then min (cursor + 1) d else cp) = d := by
    intro cp
    by_cases hf : cp ≤ cursor + 1/2
    · rw [if_pos hf]
      rcases min_cases (cursor + 1) d with ⟨h1, _⟩ | ⟨h1, _⟩
      · rw [h1]; left; linarith
      · rw [h1]; exact Or.inr rfl
    · rw [if_neg hf]; push_neg at hf; exact Or.inl hf
  cases hbs : bestSilence sil (max (ie - tol) (cursor + 1)) (min (ie + tol) d)
      ie with
  | none => simpa only using hforce ie
  | some s =>
    simp only
    by_cases hacc : bm.bytes_between cursor s.midpoint ≤ eff
    · rw [if_pos hacc]; exact hforce s.midpoint
    · rw [if_neg hacc]; exact hforce ie

/-- The possible shapes of the accurate cut decision (used for C3):
minimum-advance safety net, ideal end, or an accepted silence midpoint
whose byte count from the cursor was re-checked against the budget. -/
theorem accurateChoose_cases (d : ℚ) (eff : Nat) (tol : ℚ)
    (sil : List SilenceInterval) (bm : BitrateMap) (cursor : ℚ) :
    accurateChoose d eff tol sil bm cursor = min (cursor + 1) d ∨
      accurateChoose d eff tol sil bm cursor =
        min (bm.time_for_bytes cursor eff) d ∨
      ∃ s ∈ sil, accurateChoose d eff tol sil bm cursor = s.midpoint ∧
        bm.bytes_between cursor s.midpoint ≤ eff := by
  rw [accurateChoose]
  set ie := min (bm.time_for_bytes cursor eff) d with hie
  cases hbs : bestSilence sil (max (ie - tol) (cursor + 1)) (min (ie + tol) d)
      ie with
  | none =>
    simp only
    by_cases hf : ie ≤ cursor + 1/2
    · rw [if_pos hf]; exact Or.inl rfl
    · rw [if_neg hf]; exact Or.inr (Or.inl rfl)
  | some s =>
    simp only
    by_cases hacc : bm.bytes_between cursor s.midpoint ≤ eff
    · rw [if_pos hacc]
      by_cases hf : s.midpoint ≤ cursor + 1/2
      · rw [if_pos hf]; exact Or.inl rfl
      · rw [if_neg hf]
        exact Or.inr (Or.inr ⟨s, (bestSilence_mem hbs).1, rfl, hacc⟩)
    · rw [if_neg hacc]
      by_cases hf : ie ≤ cursor + 1/2
      · rw [if_pos hf]; exact Or.inl rfl
      · rw [if_neg hf]; exact Or.inr (Or.inl rfl)

/-! ## Termination and non-termination of the planner loops (C2) -/

/-- With a positive `max_duration`, every iteration of `cutLoop` advances
the cursor by at least `min max_duration 1`, so fuel proportional to the
remaining time suffices. -/
theorem cutLoop_isSome (d md tol : ℚ) (sil : List SilenceInterval)
    (hmd : 0 < md) :
    ∀ (fuel : Nat) (cursor : ℚ) (acc : List (ℚ × ℚ)),
      d - cursor ≤ (fuel : ℚ) * min md 1 →
      (cutLoop d md tol sil fuel cursor acc).isSome := by
  intro fuel
  induction fuel with
  | zero =>
    intro cursor acc h
    have h0 : d - cursor ≤ 0 := by simpa using h
    have hnc : ¬ cursor < d - 1/10 := by push_neg; linarith
    rw [cutLoop, if_neg hnc]
    rfl
  | succ fuel ih =>
    intro cursor acc h
    rw [cutLoop]
    by_cases hc : cursor < d - 1/10
    · rw [if_pos hc]
      by_cases hbreak : d - 1/10 ≤ min (cursor + md) d
      · rw [if_pos hbreak]; rfl
      · rw [if_neg hbreak]
        apply ih
        have hadv := cutChoose_advance d md tol sil cursor hbreak
        have hδ : (0:ℚ) < min md 1 := lt_min hmd one_pos
        push_cast at h
        nlinarith
    · rw [if_neg hc]; rfl

/-- The accurate loop advances by more than half a second (or jumps to
`duration`) every iteration, so it terminates for every input. -/
theorem accurateLoop_isSome (d : ℚ) (eff : Nat) (tol : ℚ)
    (sil : List SilenceInterval) (bm : BitrateMap) :
    ∀ (fuel : Nat) (cursor : ℚ) (acc : List (ℚ × ℚ)),
      d - cursor ≤ (fuel : ℚ) * (1/2) →
      (accurateLoop d eff tol sil bm fuel cursor acc).isSome := by
  intro fuel
  induction fuel with
  | zero =>
    intro cursor acc h
    have h0 : d - cursor ≤ 0 := by simpa using h
    have hnc : ¬ cursor < d - 1/10 := by push_neg; linarith
    rw [accurateLoop, if_neg hnc]
    rfl
  | succ fuel ih =>
    intro cursor acc h
    rw [accurateLoop]
    by_cases hc : cursor < d - 1/10
    · rw [if_pos hc]
      by_cases hbreak : d - 1/10 ≤ min (bm.time_for_bytes cursor eff) d
      · rw [if_pos hbreak]; rfl
      · rw [if_neg hbreak]
        apply ih
        push_cast at h
        rcases accurateChoose_advance d eff tol sil bm cursor with hadv | hadv
        · nlinarith
        · rw [hadv]; nlinarith
    · rw [if_neg hc]; rfl

/-- The auto-split loop advances by at least half a second or jumps to
the segment end every iteration, so it terminates for every input. -/
theorem autoSplitLoop_isSome (seg : SplitSegment) (eff : Nat)
    (bm : BitrateMap) :
    ∀ (fuel : Nat) (cursor : ℚ) (part : Nat) (acc : List SplitSegment),
      seg.end_time - cursor ≤ (fuel : ℚ) * (1/2) →
      (autoSplitLoop seg eff bm fuel cursor part acc).isSome := by
  intro fuel
  induction fuel with
  | zero =>
    intro cursor part acc h
    have h0 : seg.end_time - cursor ≤ 0 := by simpa using h
    have hnc : ¬ cursor < seg.end_time - 1/10 := by push_neg; linarith
    rw [autoSplitLoop, if_neg hnc]
    rfl
  | succ fuel ih =>
    intro cursor part acc h
    rw [autoSplitLoop]
    by_cases hc : cursor < seg.end_time - 1/10
    · rw [if_pos hc]
      by_cases hbreak :
          seg.end_time - 1/10 ≤ splitCutEnd bm eff seg.end_time cursor
      · rw [if_pos hbreak]; rfl
      · rw [if_neg hbreak]
        have hE : splitCutEnd bm eff seg.end_time cursor = seg.end_time ∨
            cursor + 1/2 ≤ splitCutEnd bm eff seg.end_time cursor := by
          rw [splitCutEnd]
          set cut0 := min (bm.time_for_bytes cursor eff) seg.end_time with hc0
          by_cases hf : cut0 ≤ cursor + 1/2
          · rw [if_pos hf]
            by_cases hs : seg.end_time - min (cursor + 1) seg.end_time < 1
            · rw [if_pos hs]; exact Or.inl rfl
            · rw [if_neg hs]
              rcases min_cases (cursor + 1) seg.end_time with ⟨h1, _⟩ | ⟨h1, _⟩
              · rw [h1]; right; linarith
              · rw [h1]; exact Or.inl rfl
          · rw [if_neg hf]
            push_neg at hf
            by_cases hs : seg.end_time - cut0 < 1
            · rw [if_pos hs]; exact Or.inl rfl
            · rw [if_neg hs]; right; linarith
        rcases hE with hE | hE
        · exfalso; rw [hE] at hbreak; push_neg at hbreak; linarith
        · apply ih
          push_cast at h
          nlinarith
    · rw [if_neg hc]; rfl

/-- With `max_bytes = 1` the effective byte budget floors to zero, the
per-iteration advance is zero, and `cutLoop` never terminates: it
returns `none` for every amount of fuel. -/
theorem cutLoop_zero_md_none (d tol : ℚ) (hd : 1/10 < d) :
    ∀ (fuel : Nat) (acc : List (ℚ × ℚ)),
      cutLoop d 0 tol [] fuel 0 acc = none := by
  have hd' : (0:ℚ) < d - 1/10 := by linarith
  have hie : min (0 + (0:ℚ)) d = 0 + 0 := min_eq_left (by linarith)
  have hbreak : ¬ (d - 1/10 ≤ min (0 + (0:ℚ)) d) := by rw [hie]; linarith
  have hchoose : cutChoose d 0 tol [] 0 = 0 := by
    have hbs : ∀ a b c : ℚ, bestSilence [] a b c = none := fun _ _ _ => rfl
    rw [cutChoose]
    simp only [hbs, hie]
    norm_num
  intro fuel
  induction fuel with
  | zero =>
    intro acc
    rw [cutLoop, if_pos hd']
  | succ fuel ih =>
    intro acc
    rw [cutLoop, if_pos hd', if_neg hbreak, hchoose]
    exact ih _

/-! ## Shape of the segment lists produced by the loops (C1, C3, C5) -/

theorem getLast?_cons_of_ne_nil {α : Type} (x : α) {l : List α}
    (h : l ≠ []) : (x :: l).getLast? = l.getLast? := by
  match l with
  | [] => exact absurd rfl h
  | y :: ys => simp

/-- Full characterization of a terminating `cutLoop` run: the produced
tail is contiguous from the cursor, is empty exactly when the loop
condition already failed, and always closes exactly at `duration`. -/
theorem cutLoop_spec (d md tol : ℚ) (sil : List SilenceInterval) :
    ∀ (fuel : Nat) (cursor : ℚ) (acc res : List (ℚ × ℚ)),
      cutLoop d md tol sil fuel cursor acc = some res →
      ∃ tail, res = acc ++ tail ∧ contiguousFrom cursor tail ∧
        (tail = [] ↔ ¬ cursor < d - 1/10) ∧
        (∀ l, tail.getLast? = some l → l.2 = d) := by
  intro fuel
  induction fuel with
  | zero =>
    intro cursor acc res h
    rw [cutLoop] at h
    by_cases hc : cursor < d - 1/10
    · rw [if_pos hc] at h; cases h
    · rw [if_neg hc] at h
      refine ⟨[], by simpa using (Option.some_inj.mp h).symm, trivial,
        iff_of_true rfl hc, ?_⟩
      intro l hl; simp at hl
  | succ fuel ih =>
    intro cursor acc res h
    rw [cutLoop] at h
    by_cases hc : cursor < d - 1/10
    · rw [if_pos hc] at h
      by_cases hbreak : d - 1/10 ≤ min (cursor + md) d
      · rw [if_pos hbreak] at h
        refine ⟨[(cursor, d)], (Option.some_inj.mp h).symm, ⟨rfl, trivial⟩,
          iff_of_false (by simp) (not_not_intro hc), ?_⟩
        · intro l hl
          simp only [List.getLast?_singleton, Option.some_inj] at hl
          rw [← hl]
      · rw [if_neg hbreak] at h
        obtain ⟨tail', hres, hcont, hemp, hlast⟩ := ih _ _ _ h
        have hlt := cutChoose_lt d md tol sil cursor hbreak
        have htne : tail' ≠ [] := by
          intro habs
          exact absurd hlt (by simpa [habs] using hemp.mp habs)
        refine ⟨(cursor, cutChoose d md tol sil cursor) :: tail', ?_,
          ⟨rfl, hcont⟩, iff_of_false (by simp) (not_not_intro hc), ?_⟩
        · rw [hres]; simp
        · intro l hl
          rw [getLast?_cons_of_ne_nil _ htne] at hl
          exact hlast l hl
    · rw [if_neg hc] at h
      refine ⟨[], by simpa using (Option.some_inj.mp h).symm, trivial,
        iff_of_true rfl hc, ?_⟩
      intro l hl; simp at hl

/-- Full characterization of a terminating `accurateLoop` run: the tail
is contiguous from the cursor; it is empty exactly when the loop
condition already failed; the final segment ends in
`[duration - 0.1, duration]`; every segment is longer than `0.1` s and
either ends at `duration` or is longer than `0.5` s; and every segment
end is a minimum-advance point, an ideal end, or a budget-checked
silence midpoint. -/
theorem accurateLoop_spec (d : ℚ) (eff : Nat) (tol : ℚ)
    (sil : List SilenceInterval) (bm : BitrateMap) :
    ∀ (fuel : Nat) (cursor : ℚ) (acc res : List (ℚ × ℚ)),
      accurateLoop d eff tol sil bm fuel cursor acc = some res →
      ∃ tail, res = acc ++ tail ∧ contiguousFrom cursor tail ∧
        (tail = [] ↔ ¬ cursor < d - 1/10) ∧
        (∀ l, tail.getLast? = some l → d - 1/10 ≤ l.2 ∧ l.2 ≤ d) ∧
        (∀ p ∈ tail, (1/10 < p.2 - p.1 ∧ p.2 ≤ d) ∧
          (p.2 = d ∨ 1/2 < p.2 - p.1)) ∧
        (∀ p ∈ tail, p.2 = d ∨ p.2 = p.1 + 1 ∨
          bm.bytes_between p.1 p.2 ≤ eff ∨
          p.2 = min (bm.time_for_bytes p.1 eff) d) := by
  intro fuel
  induction fuel with
  | zero =>
    intro cursor acc res h
    rw [accurateLoop] at h
    by_cases hc : cursor < d - 1/10
    · rw [if_pos hc] at h; cases h
    · rw [if_neg hc] at h
      refine ⟨[], by simpa using (Option.some_inj.mp h).symm, trivial,
        iff_of_true rfl hc, ?_, by simp, by simp⟩
      intro l hl; simp at hl
  | succ fuel ih =>
    intro cursor acc res h
    rw [accurateLoop] at h
    by_cases hc : cursor < d - 1/10
    · rw [if_pos hc] at h
      by_cases hbreak : d - 1/10 ≤ min (bm.time_for_bytes cursor eff) d
      · rw [if_pos hbreak] at h
        refine ⟨[(cursor, d)], (Option.some_inj.mp h).symm, ⟨rfl, trivial⟩,
          iff_of_false (by simp) (not_not_intro hc), ?_, ?_, ?_⟩
        · intro l hl
          simp only [List.getLast?_singleton, Option.some_inj] at hl
          rw [← hl]
          exact ⟨by linarith, le_refl d⟩
        · intro p hp
          simp only [List.mem_singleton] at hp
          rw [hp]
          exact ⟨⟨by linarith, le_refl d⟩, Or.inl rfl⟩
        · intro p hp
          simp only [List.mem_singleton] at hp
          rw [hp]
          exact Or.inl rfl
      · rw [if_neg hbreak] at h
        obtain ⟨tail', hres, hcont, hemp, hlast, hlen, hshape⟩ := ih _ _ _ h
        set cp := accurateChoose d eff tol sil bm cursor with hcp
        have hcpd : cp ≤ d := accurateChoose_le_duration d eff tol sil bm cursor
        have hadv := accurateChoose_advance d eff tol sil bm cursor
        rw [← hcp] at hadv
        refine ⟨(cursor, cp) :: tail', by rw [hres]; simp, ⟨rfl, hcont⟩,
          iff_of_false (by simp) (not_not_intro hc), ?_, ?_, ?_⟩
        · intro l hl
          by_cases htne : tail' = []
          · subst htne
            simp only [List.getLast?_singleton, Option.some_inj] at hl
            rw [← hl]
            have hncp : ¬ cp < d - 1/10 := hemp.mp rfl
            exact ⟨by push_neg at hncp; exact hncp, hcpd⟩
          · rw [getLast?_cons_of_ne_nil _ htne] at hl
            exact hlast l hl
        · intro p hp
          rcases List.mem_cons.mp hp with hp | hp
          · rw [hp]
            show (1/10 < cp - cursor ∧ cp ≤ d) ∧ (cp = d ∨ 1/2 < cp - cursor)
            rcases hadv with hadv | hadv
            · exact ⟨⟨by linarith, hcpd⟩, Or.inr (by linarith)⟩
            · exact ⟨⟨by rw [hadv]; linarith, hcpd⟩, Or.inl hadv⟩
          · exact hlen p hp
        · intro p hp
          rcases List.mem_cons.mp hp with hp | hp
          · rw [hp]
            rcases accurateChoose_cases d eff tol sil bm cursor with hcase |
              hcase | ⟨s, _, hmid, hbytes⟩
            · rw [← hcp] at hcase
              rcases min_cases (cursor + 1) d with ⟨h1, _⟩ | ⟨h1, _⟩
              · rw [h1] at hcase; exact Or.inr (Or.inl hcase)
              · rw [h1] at hcase; exact Or.inl hcase
            · rw [← hcp] at hcase
              exact Or.inr (Or.inr (Or.inr hcase))
            · rw [← hcp] at hmid
              refine Or.inr (Or.inr (Or.inl ?_))
              simp only [hmid]
              exact hbytes
          · exact hshape p hp
    · rw [if_neg hc] at h
      refine ⟨[], by simpa using (Option.some_inj.mp h).symm, trivial,
        iff_of_true rfl hc, ?_, by simp, by simp⟩
      intro l hl; simp at hl

/-! ## Idempotence of the auto-split cut decision (C6) -/

theorem splitCutEnd_eq_step (bm : BitrateMap) (eff : Nat) (E c : ℚ) :
    splitCutEnd bm eff E c = cutEndStep (bm.time_for_bytes c eff) E c := rfl

/-- The three possible outcomes of one auto-split cut decision. -/
theorem cutEndStep_val (T E c : ℚ) :
    cutEndStep T E c = E ∨
      (cutEndStep T E c = min (c + 1) E ∧ min T E ≤ c + 1/2 ∧
        1 ≤ E - min (c + 1) E) ∨
      (cutEndStep T E c = min T E ∧ ¬ min T E ≤ c + 1/2 ∧
        1 ≤ E - min T E) := by
  rw [cutEndStep]
  by_cases h1 : min T E ≤ c + 1/2
  · rw [if_pos h1]
    by_cases h2 : E - min (c + 1) E < 1
    · rw [if_pos h2]; exact Or.inl rfl
    · rw [if_neg h2]; exact Or.inr (Or.inl ⟨rfl, h1, by linarith⟩)
  · rw [if_neg h1]
    by_cases h2 : E - min T E < 1
    · rw [if_pos h2]; exact Or.inl rfl
    · rw [if_neg h2]; exact Or.inr (Or.inr ⟨rfl, h1, by linarith⟩)

/-- Applying the auto-split cut decision to the piece it just produced is the
identity: the re-split of a produced sub-segment collapses to a single
piece.  This is the heart of the splitter's (time-)idempotence. -/
theorem cutEndStep_idem (T E c : ℚ) :
    cutEndStep T (cutEndStep T E c) c = cutEndStep T E c := by
  rcases cutEndStep_val T E c with he | ⟨he, hA, h1⟩ | ⟨he, hA, h1⟩
  · rw [he]; exact he
  · have hmin : min (c + 1) E = c + 1 := by
      rcases min_cases (c + 1) E with ⟨hm, _⟩ | ⟨hm, hm2⟩
      · exact hm
      · exfalso; rw [hm] at h1; linarith
    rw [hmin] at he h1
    have hT : T ≤ c + 1/2 := by
      rcases min_cases T E with ⟨hm, _⟩ | ⟨hm, hm2⟩
      · rw [hm] at hA; exact hA
      · exfalso; rw [hm] at hA; linarith
    rw [he, cutEndStep]
    have hm1 : min T (c + 1) = T := min_eq_left (by linarith)
    rw [hm1, if_pos hT, min_self]
    rw [if_pos (by linarith : c + 1 - (c + 1) < (1:ℚ))]
  · have hmin : min T E = T := by
      rcases min_cases T E with ⟨hm, _⟩ | ⟨hm, hm2⟩
      · exact hm
      · exfalso; rw [hm] at h1; linarith
    rw [hmin] at he hA h1
    rw [he, cutEndStep, min_self, if_neg hA]
    rw [if_pos (by linarith : T - T < (1:ℚ))]

theorem splitCutEnd_idem (bm : BitrateMap) (eff : Nat) (E c : ℚ) :
    splitCutEnd bm eff (splitCutEnd bm eff E c) c =
      splitCutEnd bm eff E c := by
  rw [splitCutEnd_eq_step, splitCutEnd_eq_step]
  exact cutEndStep_idem _ E c

/-- In a live iteration (`cursor < end_time - 0.1`), the auto-split cut
decision lands strictly beyond `cursor + 0.1` and within the segment. -/
theorem splitCutEnd_bounds (bm : BitrateMap) (eff : Nat) (E c : ℚ)
    (hc : c < E - 1/10) :
    c + 1/10 < splitCutEnd bm eff E c ∧ splitCutEnd bm eff E c ≤ E := by
  rw [splitCutEnd_eq_step]
  set T := bm.time_for_bytes c eff with hT
  rw [cutEndStep]
  by_cases h1 : min T E ≤ c + 1/2
  · rw [if_pos h1]
    by_cases h2 : E - min (c + 1) E < 1
    · rw [if_pos h2]; exact ⟨by linarith, le_refl E⟩
    · rw [if_neg h2]
      rcases min_cases (c + 1) E with ⟨hm, hm2⟩ | ⟨hm, hm2⟩ <;> rw [hm]
      · exact ⟨by linarith, by linarith⟩
      · exact ⟨by linarith, le_refl E⟩
  · rw [if_neg h1]
    push_neg at h1
    by_cases h2 : E - min T E < 1
    · rw [if_pos h2]; exact ⟨by linarith, le_refl E⟩
    · rw [if_neg h2]
      exact ⟨by linarith, min_le_right _ _⟩

/-- Invariant of a terminating auto-split loop run: every produced
sub-segment starts where the previous ended, its end is the cut decision
applied to its start, its metadata is derived from the parent segment,
and it is longer than `0.1` s. -/
theorem autoSplitLoop_spec (seg : SplitSegment) (eff : Nat)
    (bm : BitrateMap) :
    ∀ (fuel : Nat) (cursor : ℚ) (part : Nat) (acc res : List SplitSegment),
      autoSplitLoop seg eff bm fuel cursor part acc = some res →
      ∃ tail, res = acc ++ tail ∧
        ∀ x ∈ tail,
          x.end_time = splitCutEnd bm eff seg.end_time x.start_time ∧
          x.enabled = seg.enabled ∧
          x.estimated_size_bytes = bm.bytes_between x.start_time x.end_time ∧
          x.start_time + 1/10 < x.end_time ∧ x.end_time ≤ seg.end_time := by
  intro fuel
  induction fuel with
  | zero =>
    intro cursor part acc res h
    rw [autoSplitLoop] at h
    by_cases hc : cursor < seg.end_time - 1/10
    · rw [if_pos hc] at h; cases h
    · rw [if_neg hc] at h
      exact ⟨[], by simpa using (Option.some_inj.mp h).symm, by simp⟩
  | succ fuel ih =>
    intro cursor part acc res h
    rw [autoSplitLoop] at h
    by_cases hc : cursor < seg.end_time - 1/10
    · rw [if_pos hc] at h
      have hb := splitCutEnd_bounds bm eff seg.end_time cursor hc
      have hsub : ∀ x, x = splitSub seg bm cursor
          (splitCutEnd bm eff seg.end_time cursor) part →
          x.end_time = splitCutEnd bm eff seg.end_time x.start_time ∧
          x.enabled = seg.enabled ∧
          x.estimated_size_bytes = bm.bytes_between x.start_time x.end_time ∧
          x.start_time + 1/10 < x.end_time ∧ x.end_time ≤ seg.end_time := by
        intro x hx
        rw [hx, splitSub]
        exact ⟨rfl, rfl, rfl, hb.1, hb.2⟩
      by_cases hbreak : seg.end_time - 1/10 ≤ splitCutEnd bm eff seg.end_time cursor
      · rw [if_pos hbreak] at h
        refine ⟨[splitSub seg bm cursor
          (splitCutEnd bm eff seg.end_time cursor) part],
          (Option.some_inj.mp h).symm, ?_⟩
        intro x hx
        simp only [List.mem_singleton] at hx
        exact hsub x hx
      · rw [if_neg hbreak] at h
        obtain ⟨tail', hres, htail⟩ := ih _ _ _ _ h
        refine ⟨splitSub seg bm cursor
          (splitCutEnd bm eff seg.end_time cursor) part :: tail', ?_, ?_⟩
        · rw [hres]; simp
        · intro x hx
          rcases List.mem_cons.mp hx with hx | hx
          · exact hsub x hx
          · exact htail x hx
    · rw [if_neg hc] at h
      exact ⟨[], by simpa using (Option.some_inj.mp h).symm, by simp⟩

/-- Elements of the relabelling pass differ from the loop's output only
in the `label` field. -/
theorem relabelParts_mem {base : String} {l : List SplitSegment}
    {x : SplitSegment} (hx : x ∈ relabelParts base l) :
    ∃ y ∈ l, x.start_time = y.start_time ∧ x.end_time = y.end_time ∧
      x.enabled = y.enabled ∧
      x.estimated_size_bytes = y.estimated_size_bytes := by
  rw [relabelParts, List.mem_map] at hx
  obtain ⟨p, hp, hxp⟩ := hx
  have hmem : p.2 ∈ l := List.getElem?_mem (List.mem_enum_iff_getElem?.mp hp)
  exact ⟨p.2, hmem, by rw [← hxp], by rw [← hxp], by rw [← hxp],
    by rw [← hxp]⟩

/-! ## BitrateMap query lemmas (C4, C10) -/

/-- `getD`-access into a non-decreasing list is monotone on in-bounds
indices. -/
theorem sorted_getD_mono {l : List Nat} (hs : l.Sorted (· ≤ ·)) {i j : Nat}
    (hij : i ≤ j) (hj : j < l.length) : l.getD i 0 ≤ l.getD j 0 := by
  have hi : i < l.length := lt_of_le_of_lt hij hj
  rw [List.getD_eq_getElem?_getD, List.getD_eq_getElem?_getD,
    List.getElem?_eq_getElem hi, List.getElem?_eq_getElem hj]
  simpa using hs.rel_get_of_le (a := ⟨i, hi⟩) (b := ⟨j, hj⟩) hij

/-- In-bounds `get?` agrees with the clamped `getD` access. -/
theorem get?_eq_getD {l : List Nat} {i : Nat} (h : i < l.length) :
    l.get? i = some (l.getD i 0) := by
  rw [List.getD_eq_getElem?_getD, ← List.get?_eq_getElem?,
    List.get?_eq_get h]
  rfl

/-- The checked `time_for_bytes` scan agrees with the unchecked one as
long as it stays within the curve. -/
theorem tfbScanChecked_eq (cum : List Nat) (base target : Nat) :
    ∀ (steps i : Nat), i + steps ≤ cum.length →
      tfbScanChecked cum base target i steps =
        some (tfbScan cum base target i steps) := by
  intro steps
  induction steps with
  | zero => intro i _; rfl
  | succ steps ih =>
    intro i hle
    have hi : i < cum.length := by omega
    rw [tfbScanChecked, tfbScan, get?_eq_getD hi]
    by_cases hcond : target ≤ cum.getD i 0 - base
    · simp only [if_pos hcond]
    · simp only [if_neg hcond]
      exact ih (i + 1) (by omega)

/-! ## Size bound of the uniform auto-split parts (C6) -/

/-- Every sub-segment produced by the uniform fallback branch has an
estimated size within the effective byte budget. -/
theorem uniformSplit_size_le (seg : SplitSegment) (bps : ℚ) (eff n : Nat)
    (hbps : 0 < bps) (x : SplitSegment)
    (hx : x ∈ uniformSplit seg bps ((eff : ℚ) / bps) n) :
    x.estimated_size_bytes ≤ eff := by
  rw [uniformSplit, List.mem_map] at hx
  obtain ⟨i, _, hxi⟩ := hx
  have hsize : x.estimated_size_bytes =
      floorToNat (bps *
        (min (seg.start_time + ((i : ℚ) + 1) * ((eff : ℚ) / bps)) seg.end_time -
          (seg.start_time + (i : ℚ) * ((eff : ℚ) / bps)))) := by
    rw [← hxi]
  have hlen : min (seg.start_time + ((i : ℚ) + 1) * ((eff : ℚ) / bps))
      seg.end_time - (seg.start_time + (i : ℚ) * ((eff : ℚ) / bps)) ≤
      (eff : ℚ) / bps := by
    have h1 : min (seg.start_time + ((i : ℚ) + 1) * ((eff : ℚ) / bps))
        seg.end_time ≤ seg.start_time + ((i : ℚ) + 1) * ((eff : ℚ) / bps) :=
      min_le_left _ _
    nlinarith [h1]
  have hmul : bps *
      (min (seg.start_time + ((i : ℚ) + 1) * ((eff : ℚ) / bps)) seg.end_time -
        (seg.start_time + (i : ℚ) * ((eff : ℚ) / bps))) ≤ (eff : ℚ) := by
    have := mul_le_mul_of_nonneg_left hlen (le_of_lt hbps)
    calc bps * _ ≤ bps * ((eff : ℚ) / bps) := this
    _ = (eff : ℚ) := by field_simp
  rw [hsize, floorToNat]
  have hfloor : ⌊bps *
      (min (seg.start_time + ((i : ℚ) + 1) * ((eff : ℚ) / bps)) seg.end_time -
        (seg.start_time + (i : ℚ) * ((eff : ℚ) / bps)))⌋ ≤ (eff : ℤ) := by
    have := Int.floor_le_floor hmul
    simpa using this
  omega

/-- The effective byte budget never exceeds the requested budget. -/
theorem effectiveMaxBytes_le (mb : Nat) : effectiveMaxBytes mb ≤ mb := by
  rw [effectiveMaxBytes, floorToNat]
  have h1 : (mb : ℚ) * 49 / 50 ≤ (mb : ℚ) := by
    rw [div_le_iff₀ (by norm_num : (0:ℚ) < 50)]
    nlinarith [Nat.cast_nonneg (α := ℚ) mb]
  have h2 : ⌊(mb : ℚ) * 49 / 50⌋ ≤ ⌊(mb : ℚ)⌋ := Int.floor_le_floor h1
  rw [Int.floor_natCast] at h2
  omega

/-! ## Claim C4 -/

/-- C4 counterexample: on the non-decreasing, non-empty map
`[0, 10, 20]`, `bytes_between(1.5, 1.5)` is `10`, not `0` — for a
fractional time the floor/ceil index pair brackets a whole second. -/
theorem claim_C4_counterexample :
    (BitrateMap.mk [0, 10, 20] 2).bytes_between (3/2) (3/2) = 10 ∧
    (10 : Nat) ≠ 0 ∧ ([0, 10, 20] : List Nat).Sorted (· ≤ ·) := by
  refine ⟨by with_unfolding_all decide, by decide, by decide⟩

/-- C4 (amended): `bytes_between(t, t) = 0` holds for every
whole-second `t` (for fractional `t` it returns the bytes of the second
containing `t`, see the counterexample); and for every `BitrateMap`
whose `cumulative_bytes` is non-decreasing and non-empty,
`bytes_between(start, ·)` is monotonically non-decreasing. -/
theorem claim_C4 :
    (∀ (bm : BitrateMap) (t : ℚ), t = (⌊t⌋ : ℚ) →
      bm.bytes_between t t = 0) ∧
    (∀ (bm : BitrateMap) (s e₁ e₂ : ℚ),
      bm.cumulative_bytes.Sorted (· ≤ ·) → bm.cumulative_bytes ≠ [] →
      e₁ ≤ e₂ → bm.bytes_between s e₁ ≤ bm.bytes_between s e₂) := by
  constructor
  · intro bm t ht
    have hceil : ceilToNat t = floorToNat t := by
      rw [ceilToNat, floorToNat]
      rw [ht, Int.ceil_intCast, Int.floor_intCast]
    rw [BitrateMap.bytes_between, hceil]
    exact Nat.sub_self _
  · intro bm s e₁ e₂ hs hne h12
    rw [BitrateMap.bytes_between, BitrateMap.bytes_between]
    have hlen : 0 < bm.cumulative_bytes.length := List.length_pos.mpr hne
    have hidx : min (ceilToNat e₁) (bm.cumulative_bytes.length - 1) ≤
        min (ceilToNat e₂) (bm.cumulative_bytes.length - 1) := by
      have hc : ceilToNat e₁ ≤ ceilToNat e₂ := by
        rw [ceilToNat, ceilToNat]
        exact Int.toNat_le_toNat (Int.ceil_le_ceil h12)
      omega
    have hj : min (ceilToNat e₂) (bm.cumulative_bytes.length - 1) <
        bm.cumulative_bytes.length := by omega
    exact Nat.sub_le_sub_right (sorted_getD_mono hs hidx hj) _

/-- C4 witness: the amended theorem applied to the concrete map
`[0, 5, 7]` at `t = 2` and at `(s, e₁, e₂) = (0, 1, 5/2)`. -/
theorem claim_C4_witness :
    (BitrateMap.mk [0, 5, 7] 2).bytes_between 2 2 = 0 ∧
    (BitrateMap.mk [0, 5, 7] 2).bytes_between 0 1 ≤
      (BitrateMap.mk [0, 5, 7] 2).bytes_between 0 (5/2) := by
  constructor
  · exact claim_C4.1 (BitrateMap.mk [0, 5, 7] 2) 2
      (by with_unfolding_all decide)
  · exact claim_C4.2 (BitrateMap.mk [0, 5, 7] 2) 0 1 (5/2) (by decide)
      (by decide) (by norm_num)

/-! ## Claim C8 -/

/-- C8 counterexample: at `duration = 9.8`, `bitrate = 8`,
`max_bytes = 10`, the premise `duration * bitrate/8 ≤ max_bytes * 0.98`
holds (`9.8 ≤ 9.8`), but the `as u64` cast floors the effective budget
to `9` bytes, so the planner returns two segments, not one. -/
theorem claim_C8_counterexample :
    (49/5 : ℚ) * 8 / 8 ≤ 10 * (49/50) ∧ (0:ℚ) < 49/5 ∧ (0:ℚ) < 8 ∧
    (0 < 10) ∧
    compute_cut_points 5 (49/5) 8 10 30 [] = some [(0, 9), (9, 49/5)] ∧
    ([(0, 9), (9, 49/5)] : List (ℚ × ℚ)).length ≠ 1 := by
  refine ⟨by norm_num, by norm_num, by norm_num, by norm_num,
    by with_unfolding_all decide, by decide⟩

/-- C8 (amended): if `duration * bitrate_bps/8` is at most the floored
effective budget `⌊max_bytes * 0.98⌋` (not the un-floored
`max_bytes * 0.98` of the original claim), the result is exactly one
segment `(0, duration)`. -/
theorem claim_C8 (fuel : Nat) (d br : ℚ) (mb : Nat) (tol : ℚ)
    (sil : List SilenceInterval) (hd : 0 < d) (hbr : 0 < br)
    (hmb : 0 < mb) (hfit : d * br / 8 ≤ (effectiveMaxBytes mb : ℚ)) :
    compute_cut_points fuel d br mb tol sil = some [(0, d)] := by
  rw [compute_cut_points]
  rw [if_neg (by push_neg; exact ⟨by linarith, by linarith, by omega⟩)]
  rw [if_pos]
  rw [le_div_iff₀ (by linarith : (0:ℚ) < br / 8)]
  calc d * (br / 8) = d * br / 8 := by ring
  _ ≤ (effectiveMaxBytes mb : ℚ) := hfit

/-- C8 witness: `duration = 5`, `bitrate = 8`, `max_bytes = 10`:
`5 * 8/8 = 5 ≤ 9 = ⌊10 * 0.98⌋`, and the result is one segment. -/
theorem claim_C8_witness :
    compute_cut_points 0 5 8 10 30 [] = some [(0, 5)] :=
  claim_C8 0 5 8 10 30 [] (by norm_num) (by norm_num) (by norm_num)
    (by with_unfolding_all decide)

/-! ## Claim C10 -/

/-- C10 (confirmed): for a non-empty `BitrateMap`, every array index
computed by `bytes_between` and `time_for_bytes` is in bounds for
arbitrary rational arguments — the index-checked variants never report
an out-of-bounds access and agree with the clamped originals; and
non-emptiness is necessary: on an empty map both queries index the
array unconditionally (the checked variants report the out-of-bounds
access that panics in Rust). -/
theorem claim_C10 :
    (∀ (bm : BitrateMap) (s e : ℚ), bm.cumulative_bytes ≠ [] →
      bm.bytes_between_checked s e = some (bm.bytes_between s e)) ∧
    (∀ (bm : BitrateMap) (t : ℚ) (n : Nat), bm.cumulative_bytes ≠ [] →
      bm.time_for_bytes_checked t n = some (bm.time_for_bytes t n)) ∧
    (∀ (bm : BitrateMap) (s e t : ℚ) (n : Nat), bm.cumulative_bytes = [] →
      bm.bytes_between_checked s e = none ∧
      bm.time_for_bytes_checked t n = none) := by
  refine ⟨?_, ?_, ?_⟩
  · intro bm s e hne
    have hlen : 0 < bm.cumulative_bytes.length := List.length_pos.mpr hne
    rw [BitrateMap.bytes_between_checked, BitrateMap.bytes_between]
    rw [get?_eq_getD (by omega), get?_eq_getD (by omega)]
  · intro bm t n hne
    have hlen : 0 < bm.cumulative_bytes.length := List.length_pos.mpr hne
    have hstart : min (floorToNat t) (bm.cumulative_bytes.length - 1) <
        bm.cumulative_bytes.length := by omega
    have hscan := tfbScanChecked_eq bm.cumulative_bytes
      (bm.cumulative_bytes.getD
        (min (floorToNat t) (bm.cumulative_bytes.length - 1)) 0) n
      (bm.cumulative_bytes.length -
        (min (floorToNat t) (bm.cumulative_bytes.length - 1) + 1))
      (min (floorToNat t) (bm.cumulative_bytes.length - 1) + 1)
      (by omega)
    rw [BitrateMap.time_for_bytes_checked, BitrateMap.time_for_bytes]
    simp only [get?_eq_getD hstart, hscan]
    cases tfbScan bm.cumulative_bytes
        (bm.cumulative_bytes.getD
          (min (floorToNat t) (bm.cumulative_bytes.length - 1)) 0) n
        (min (floorToNat t) (bm.cumulative_bytes.length - 1) + 1)
        (bm.cumulative_bytes.length -
          (min (floorToNat t) (bm.cumulative_bytes.length - 1) + 1)) with
    | none => rfl
    | some i => rfl
  · intro bm s e t n hemp
    constructor
    · rw [BitrateMap.bytes_between_checked, hemp]
      rfl
    · rw [BitrateMap.time_for_bytes_checked, hemp]
      rfl

/-- C10 witness: the concrete non-empty map `[0, 5]` with negative,
fractional and out-of-range arguments, and the empty map. -/
theorem claim_C10_witness :
    (BitrateMap.mk [0, 5] 1).bytes_between_checked (-3/2) (7/2) =
      some ((BitrateMap.mk [0, 5] 1).bytes_between (-3/2) (7/2)) ∧
    (BitrateMap.mk [0, 5] 1).time_for_bytes_checked (-3/2) 3 =
      some ((BitrateMap.mk [0, 5] 1).time_for_bytes (-3/2) 3) ∧
    (BitrateMap.mk [] 1).bytes_between_checked 0 1 = none := by
  refine ⟨claim_C10.1 (BitrateMap.mk [0, 5] 1) (-3/2) (7/2) (by decide),
    claim_C10.2.1 (BitrateMap.mk [0, 5] 1) (-3/2) 3 (by decide),
    (claim_C10.2.2 (BitrateMap.mk [] 1) 0 1 0 0 rfl).1⟩

/-! ## Claim C7 -/

/-- C7 (confirmed): `cancel_all` turns exactly the `Pending` jobs into
`Failed("Cancelled")`, leaves every other job (and the queue's `next_id`
and `is_processing`) untouched, and afterwards `has_pending()` is false;
in particular three `add_trim`s followed by `cancel_all` leave all
three jobs `Failed("Cancelled")`. -/
theorem claim_C7 :
    (∀ (q : ExportQueue) (i : Nat) (j j' : ExportJob),
      q.jobs.get? i = some j → (q.cancel_all).jobs.get? i = some j' →
      (j.status = JobStatus.Pending →
        j' = { j with status := JobStatus.Failed ("Cancelled") }) ∧
      (j.status ≠ JobStatus.Pending → j' = j)) ∧
    (∀ q : ExportQueue, (q.cancel_all).next_id = q.next_id ∧
      (q.cancel_all).is_processing = q.is_processing ∧
      (q.cancel_all).jobs.length = q.jobs.length) ∧
    (∀ q : ExportQueue, (q.cancel_all).has_pending = false) ∧
    ((((((ExportQueue.new.add_trim ("a") ("o1") 0 1
        TrimMode.Lossless).1).add_trim ("a") ("o2") 1 2
        TrimMode.Lossless).1).add_trim ("a") ("o3") 2 3
        TrimMode.Lossless).1.cancel_all).jobs.map (fun j => j.status) =
        [JobStatus.Failed ("Cancelled"), JobStatus.Failed ("Cancelled"),
          JobStatus.Failed ("Cancelled")] ∧
      (((((ExportQueue.new.add_trim ("a") ("o1") 0 1
        TrimMode.Lossless).1).add_trim ("a") ("o2") 1 2
        TrimMode.Lossless).1).add_trim ("a") ("o3") 2 3
        TrimMode.Lossless).1.cancel_all.has_pending = false := by
  refine ⟨?_, ?_, ?_, by with_unfolding_all decide,
    by with_unfolding_all decide⟩
  · intro q i j j' hj hj'
    rw [ExportQueue.cancel_all, List.get?_eq_getElem?, List.getElem?_map,
      ← List.get?_eq_getElem?, hj, Option.map_some'] at hj'
    have hj2 := Option.some_inj.mp hj'
    constructor
    · intro hp
      rw [← hj2, if_pos hp]
    · intro hp
      rw [← hj2, if_neg hp]
  · intro q
    exact ⟨rfl, rfl, by rw [ExportQueue.cancel_all]; exact List.length_map _ _⟩
  · intro q
    rw [ExportQueue.has_pending, ExportQueue.cancel_all]
    simp only [List.any_map, List.any_eq_false, Function.comp]
    intro j _
    by_cases hp : j.status = JobStatus.Pending
    · simp only [if_pos hp]
      simp
    · simp only [if_neg hp]
      simpa using hp

/-- C7 witness: the field-level clauses applied to a concrete two-job
queue (one `Pending`, one `Completed`). -/
theorem claim_C7_witness :
    ((ExportQueue.mk
        [ExportJob.new_trim 0 ("a") ("b") 0 1 TrimMode.Lossless,
          { ExportJob.new_trim 1 ("a") ("c") 1 2 TrimMode.Lossless with
            status := JobStatus.Completed }] 2 false).cancel_all).jobs.get? 0 =
      some { ExportJob.new_trim 0 ("a") ("b") 0 1 TrimMode.Lossless with
        status := JobStatus.Failed ("Cancelled") } ∧
    ((ExportQueue.mk
        [ExportJob.new_trim 0 ("a") ("b") 0 1 TrimMode.Lossless,
          { ExportJob.new_trim 1 ("a") ("c") 1 2 TrimMode.Lossless with
            status := JobStatus.Completed }] 2 false).cancel_all).has_pending =
      false := by
  constructor
  · have h := (claim_C7.1 (ExportQueue.mk
        [ExportJob.new_trim 0 ("a") ("b") 0 1 TrimMode.Lossless,
          { ExportJob.new_trim 1 ("a") ("c") 1 2 TrimMode.Lossless with
            status := JobStatus.Completed }] 2 false) 0
        (ExportJob.new_trim 0 ("a") ("b") 0 1 TrimMode.Lossless)
        { ExportJob.new_trim 0 ("a") ("b") 0 1 TrimMode.Lossless with
          status := JobStatus.Failed ("Cancelled") }
        (by with_unfolding_all decide) (by with_unfolding_all decide)).1 rfl
    with_unfolding_all decide
  · exact claim_C7.2.2.1 _

/-! ## Claim C1 -/

/-- C1 counterexample: (a) at `duration = 0.05 > 0` (with positive
bitrate and byte budget) the uniform planner returns the empty list —
no segment starts at `0` and nothing covers `[0, duration]`; (b) the
accurate planner can accept a silence midpoint inside the final `0.1` s
and stop with a last segment ending at `9.95 ≠ 10 = duration`. -/
theorem claim_C1_counterexample :
    ((0:ℚ) < 1/20 ∧ (0:ℚ) < 800 ∧ (2 : Nat) ≠ 0) ∧
    compute_cut_points 5 (1/20) 800 2 30 [] = some [] ∧
    compute_cut_points_accurate 5 10 60 30 [SilenceInterval.mk (99/10) 10]
        (BitrateMap.mk [0, 58, 58, 58, 58, 116, 116, 116, 116, 116, 116] 10) =
      some [(0, 1), (1, 199/20)] ∧
    (199/20 : ℚ) ≠ 10 := by
  refine ⟨⟨by norm_num, by norm_num, by decide⟩,
    by with_unfolding_all decide, by with_unfolding_all decide, by norm_num⟩

/-- C1 (amended): for `duration > 0.1` (the original claim fails for
positive durations up to `0.1`, where the loop body never runs and the
list is empty), every terminating run of `compute_cut_points` returns a
non-empty contiguous list starting at `0` whose last segment ends
exactly at `duration`; `compute_cut_points_accurate` likewise, except
that its last segment is only guaranteed to end within `0.1` s of
`duration` (and never past it). -/
theorem claim_C1 (fuel : Nat) (d br : ℚ) (mb : Nat) (tol : ℚ)
    (sil : List SilenceInterval) (bm : BitrateMap)
    (res res' : List (ℚ × ℚ)) (hd : 1/10 < d) :
    (compute_cut_points fuel d br mb tol sil = some res →
      res ≠ [] ∧ contiguousFrom 0 res ∧
      ∀ l, res.getLast? = some l → l.2 = d) ∧
    (compute_cut_points_accurate fuel d mb tol sil bm = some res' →
      res' ≠ [] ∧ contiguousFrom 0 res' ∧
      ∀ l, res'.getLast? = some l → d - 1/10 ≤ l.2 ∧ l.2 ≤ d) := by
  have hd0 : (0:ℚ) < d := by linarith
  have hmax : max d 0 = d := max_eq_left (by linarith)
  constructor
  · intro h
    rw [compute_cut_points] at h
    by_cases hdeg : d ≤ 0 ∨ br ≤ 0 ∨ mb = 0
    · rw [if_pos hdeg] at h
      have hres : res = [(0, max d 0)] := (Option.some_inj.mp h).symm
      subst hres
      refine ⟨by simp, ⟨rfl, trivial⟩, ?_⟩
      intro l hl
      simp only [List.getLast?_singleton, Option.some_inj] at hl
      rw [← hl]
      exact hmax
    · rw [if_neg hdeg] at h
      by_cases hfit : d ≤ (effectiveMaxBytes mb : ℚ) / (br / 8)
      · rw [if_pos hfit] at h
        have hres : res = [(0, d)] := (Option.some_inj.mp h).symm
        subst hres
        refine ⟨by simp, ⟨rfl, trivial⟩, ?_⟩
        intro l hl
        simp only [List.getLast?_singleton, Option.some_inj] at hl
        rw [← hl]
      · rw [if_neg hfit] at h
        obtain ⟨tail, hres, hcont, hemp, hlast⟩ :=
          cutLoop_spec d ((effectiveMaxBytes mb : ℚ) / (br / 8)) tol sil
            fuel 0 [] res h
        rw [List.nil_append] at hres
        subst hres
        refine ⟨?_, hcont, hlast⟩
        intro habs
        exact absurd (by linarith : (0:ℚ) < d - 1/10)
          (by simpa using hemp.mp habs)
  · intro h
    rw [compute_cut_points_accurate] at h
    by_cases hdeg : d ≤ 0 ∨ mb = 0 ∨ bm.is_empty = true
    · rw [if_pos hdeg] at h
      have hres : res' = [(0, max d 0)] := (Option.some_inj.mp h).symm
      subst hres
      refine ⟨by simp, ⟨rfl, trivial⟩, ?_⟩
      intro l hl
      simp only [List.getLast?_singleton, Option.some_inj] at hl
      rw [← hl, hmax]
      exact ⟨by linarith, le_refl d⟩
    · rw [if_neg hdeg] at h
      by_cases hfit : bm.bytes_between 0 d ≤ effectiveMaxBytes mb
      · rw [if_pos hfit] at h
        have hres : res' = [(0, d)] := (Option.some_inj.mp h).symm
        subst hres
        refine ⟨by simp, ⟨rfl, trivial⟩, ?_⟩
        intro l hl
        simp only [List.getLast?_singleton, Option.some_inj] at hl
        rw [← hl]
        exact ⟨by linarith, le_refl d⟩
      · rw [if_neg hfit] at h
        obtain ⟨tail, hres, hcont, hemp, hlast, _, _⟩ :=
          accurateLoop_spec d (effectiveMaxBytes mb) tol sil bm
            fuel 0 [] res' h
        rw [List.nil_append] at hres
        subst hres
        refine ⟨?_, hcont, hlast⟩
        intro habs
        exact absurd (by linarith : (0:ℚ) < d - 1/10)
          (by simpa using hemp.mp habs)

/-- C1 witness: both planners applied to a 100-second file that fits in
one segment. -/
theorem claim_C1_witness :
    (([(0, 100)] : List (ℚ × ℚ)) ≠ [] ∧
      contiguousFrom 0 [((0:ℚ), (100:ℚ))] ∧
      ∀ l, ([((0:ℚ), (100:ℚ))] : List (ℚ × ℚ)).getLast? = some l →
        l.2 = 100) ∧
    (([(0, 100)] : List (ℚ × ℚ)) ≠ [] ∧
      contiguousFrom 0 [((0:ℚ), (100:ℚ))] ∧
      ∀ l, ([((0:ℚ), (100:ℚ))] : List (ℚ × ℚ)).getLast? = some l →
        (100:ℚ) - 1/10 ≤ l.2 ∧ l.2 ≤ 100) := by
  have H := claim_C1 5 100 1000000 100000000 30 [] (BitrateMap.mk [0, 1] 100)
    [(0, 100)] [(0, 100)] (by norm_num)
  exact ⟨H.1 (by with_unfolding_all decide), H.2 (by with_unfolding_all decide)⟩

/-! ## Claim C2 -/

/-- C2 counterexample: with `max_bytes = 1` the effective budget floors
to zero bytes, the ideal end equals the cursor, no silence can be
accepted, and the `compute_cut_points` loop never advances — the source
loops forever (no amount of fuel makes the embedded loop finish). -/
theorem claim_C2_counterexample :
    ¬ ∃ fuel, (compute_cut_points fuel 10 8 1 30 []).isSome := by
  rintro ⟨fuel, hf⟩
  rw [compute_cut_points] at hf
  rw [if_neg (by push_neg; refine ⟨by norm_num, by norm_num, by omega⟩)] at hf
  have heff : effectiveMaxBytes 1 = 0 := by with_unfolding_all decide
  rw [heff] at hf
  rw [if_neg (by norm_num)] at hf
  have hzero : ((0 : Nat) : ℚ) / ((8:ℚ) / 8) = 0 := by norm_num
  rw [hzero] at hf
  rw [cutLoop_zero_md_none 10 30 (by norm_num) fuel []] at hf
  cases hf

/-- C2 (amended): the claim fails for `compute_cut_points` at
`max_bytes = 1` (see the counterexample); for every `max_bytes ≠ 1` the
uniform planner terminates, and `compute_cut_points_accurate` and
`auto_split_segment` terminate on all inputs. -/
theorem claim_C2 :
    (∀ (d br : ℚ) (mb : Nat) (tol : ℚ) (sil : List SilenceInterval),
      mb ≠ 1 →
      ∃ fuel, (compute_cut_points fuel d br mb tol sil).isSome) ∧
    (∀ (d : ℚ) (mb : Nat) (tol : ℚ) (sil : List SilenceInterval)
      (bm : BitrateMap),
      ∃ fuel, (compute_cut_points_accurate fuel d mb tol sil bm).isSome) ∧
    (∀ (seg : SplitSegment) (mb : Nat) (bps : ℚ)
      (bmo : Option BitrateMap),
      ∃ fuel, (auto_split_segment fuel seg mb bps bmo).isSome) := by
  refine ⟨?_, ?_, ?_⟩
  · intro d br mb tol sil hmb
    by_cases hdeg : d ≤ 0 ∨ br ≤ 0 ∨ mb = 0
    · exact ⟨0, by rw [compute_cut_points, if_pos hdeg]; rfl⟩
    · push_neg at hdeg
      obtain ⟨hd, hbr, hmb0⟩ := hdeg
      by_cases hfit : d ≤ (effectiveMaxBytes mb : ℚ) / (br / 8)
      · refine ⟨0, ?_⟩
        rw [compute_cut_points,
          if_neg (by push_neg; exact ⟨by linarith, by linarith, hmb0⟩),
          if_pos hfit]
        rfl
      · have heff : 1 ≤ effectiveMaxBytes mb := by
          have hmb2 : 2 ≤ mb := by omega
          rw [effectiveMaxBytes, floorToNat]
          have : (1 : ℤ) ≤ ⌊(mb : ℚ) * 49 / 50⌋ := by
            rw [Int.le_floor]
            have : (2 : ℚ) ≤ (mb : ℚ) := by exact_mod_cast hmb2
            rw [le_div_iff₀ (by norm_num : (0:ℚ) < 50)]
            push_cast
            nlinarith
          omega
        have hmd : 0 < (effectiveMaxBytes mb : ℚ) / (br / 8) := by
          apply div_pos
          · exact_mod_cast Nat.lt_of_lt_of_le Nat.zero_lt_one heff
          · linarith
        set md := (effectiveMaxBytes mb : ℚ) / (br / 8) with hmddef
        have hδ : (0:ℚ) < min md 1 := lt_min hmd one_pos
        refine ⟨⌈d / min md 1⌉₊, ?_⟩
        rw [compute_cut_points,
          if_neg (by push_neg; exact ⟨by linarith, by linarith, hmb0⟩),
          if_neg hfit]
        apply cutLoop_isSome d md tol sil hmd
        have hceil : d / min md 1 ≤ (⌈d / min md 1⌉₊ : ℚ) := Nat.le_ceil _
        rw [div_le_iff₀ hδ] at hceil
        linarith
  · intro d mb tol sil bm
    by_cases hdeg : d ≤ 0 ∨ mb = 0 ∨ bm.is_empty = true
    · exact ⟨0, by rw [compute_cut_points_accurate, if_pos hdeg]; rfl⟩
    · by_cases hfit : bm.bytes_between 0 d ≤ effectiveMaxBytes mb
      · exact ⟨0, by
          rw [compute_cut_points_accurate, if_neg hdeg, if_pos hfit]; rfl⟩
      · refine ⟨⌈d * 2⌉₊, ?_⟩
        rw [compute_cut_points_accurate, if_neg hdeg, if_neg hfit]
        apply accurateLoop_isSome
        have hceil : d * 2 ≤ (⌈d * 2⌉₊ : ℚ) := Nat.le_ceil _
        linarith
  · intro seg mb bps bmo
    by_cases h0 : mb = 0
    · exact ⟨0, by rw [auto_split_segment, if_pos h0]; rfl⟩
    · by_cases hfit : auto_split_real_size seg bmo ≤ mb
      · exact ⟨0, by rw [auto_split_segment, if_neg h0, if_pos hfit]; rfl⟩
      · cases bmo with
        | none =>
          refine ⟨0, ?_⟩
          rw [auto_split_segment, if_neg h0, if_neg hfit, auto_split_oversized]
          by_cases hbps : bps / 8 ≤ 0
          · rw [if_pos hbps]; rfl
          · rw [if_neg hbps]; rfl
        | some bm =>
          refine ⟨⌈(seg.end_time - seg.start_time) * 2⌉₊, ?_⟩
          rw [auto_split_segment, if_neg h0, if_neg hfit, auto_split_oversized]
          have hloop := autoSplitLoop_isSome seg (effectiveMaxBytes mb) bm
            ⌈(seg.end_time - seg.start_time) * 2⌉₊ seg.start_time 1 []
            (by
              have hceil : (seg.end_time - seg.start_time) * 2 ≤
                ((⌈(seg.end_time - seg.start_time) * 2⌉₊ : ℚ)) := Nat.le_ceil _
              linarith)
          obtain ⟨r, hr⟩ := Option.isSome_iff_exists.mp hloop
          rw [hr]
          rfl

/-- C2 witness: the amended theorem instantiated at the scenario inputs
(`max_bytes = 2`, a 10-second file, a concrete oversized segment). -/
theorem claim_C2_witness :
    ((2 : Nat) ≠ 1) ∧
    (∃ fuel, (compute_cut_points fuel 10 8 2 30 []).isSome) ∧
    (∃ fuel, (compute_cut_points_accurate fuel 10 2 30 []
      (BitrateMap.mk [0, 5, 9] 2)).isSome) ∧
    (∃ fuel, (auto_split_segment fuel
      (SplitSegment.mk 0 10 ("s") true 100) 2 8 none).isSome) :=
  ⟨by decide, claim_C2.1 10 8 2 30 [] (by decide),
    claim_C2.2.1 10 2 30 [] (BitrateMap.mk [0, 5, 9] 2),
    claim_C2.2.2 (SplitSegment.mk 0 10 ("s") true 100) 2 8 none⟩

/-! ## Claim C3 -/

/-- C3 counterexample: the accurate planner cuts at the ideal end
returned by `time_for_bytes`, which is the FIRST second where the
cumulative count reaches the budget — so a single heavy second makes the
segment overshoot the budget by that second's bytes.  Here the segment
`(0, 2)` (not forced by the 1-second rule: its length is `2`) carries
`1000` bytes against `max_bytes * 0.98 = 58.8`, exceeding it even with a
generous `ε = 500`. -/
theorem claim_C3_counterexample :
    compute_cut_points_accurate 5 10 60 0 []
        (BitrateMap.mk
          [0, 0, 1000, 1000, 1000, 1000, 1000, 1000, 1000, 1000, 2000] 10) =
      some [(0, 2), (2, 10)] ∧
    (BitrateMap.mk
        [0, 0, 1000, 1000, 1000, 1000, 1000, 1000, 1000, 1000, 2000]
        10).bytes_between 0 2 = 1000 ∧
    ¬ ((1000 : ℚ) ≤ 60 * (49/50) + 500) ∧
    (2 : ℚ) - 0 ≠ 1 ∧ (2 : ℚ) ≠ 10 := by
  refine ⟨by with_unfolding_all decide, by with_unfolding_all decide,
    by norm_num, by norm_num, by norm_num⟩

/-- C3 (amended): the silence re-verification half of the claim holds:
a silence midpoint is used as a cut only if the bytes from the cursor to
it fit the effective budget `⌊max_bytes * 0.98⌋`.  The uniform byte
bound of the claim does not: every produced segment either ends at
`duration`, is a forced 1-second advance, satisfies
`bytes_between(start, end) ≤ ⌊max_bytes * 0.98⌋` (the accepted-silence
case), or ends at the `time_for_bytes` ideal end — which first REACHES
the budget and may exceed it by one second's bytes (no `ε` bounds it,
see the counterexample). -/
theorem claim_C3 (fuel : Nat) (d : ℚ) (mb : Nat) (tol : ℚ)
    (sil : List SilenceInterval) (bm : BitrateMap) (res : List (ℚ × ℚ))
    (hd : 0 < d)
    (h : compute_cut_points_accurate fuel d mb tol sil bm = some res) :
    ∀ p ∈ res, p.2 = d ∨ p.2 = p.1 + 1 ∨
      bm.bytes_between p.1 p.2 ≤ effectiveMaxBytes mb ∨
      p.2 = min (bm.time_for_bytes p.1 (effectiveMaxBytes mb)) d := by
  rw [compute_cut_points_accurate] at h
  by_cases hdeg : d ≤ 0 ∨ mb = 0 ∨ bm.is_empty = true
  · rw [if_pos hdeg] at h
    have hres : res = [(0, max d 0)] := (Option.some_inj.mp h).symm
    subst hres
    intro p hp
    simp only [List.mem_singleton] at hp
    rw [hp]
    exact Or.inl (max_eq_left (by linarith))
  · rw [if_neg hdeg] at h
    by_cases hfit : bm.bytes_between 0 d ≤ effectiveMaxBytes mb
    · rw [if_pos hfit] at h
      have hres : res = [(0, d)] := (Option.some_inj.mp h).symm
      subst hres
      intro p hp
      simp only [List.mem_singleton] at hp
      rw [hp]
      exact Or.inl rfl
    · rw [if_neg hfit] at h
      obtain ⟨tail, hres, _, _, _, _, hshape⟩ :=
        accurateLoop_spec d (effectiveMaxBytes mb) tol sil bm fuel 0 [] res h
      rw [List.nil_append] at hres
      subst hres
      exact hshape

/-- C3 witness: the amended theorem applied to the counterexample's
inputs at the segment `(2, 10)` (which ends at `duration`). -/
theorem claim_C3_witness :
    ((2:ℚ), (10:ℚ)).2 = 10 ∨ ((2:ℚ), (10:ℚ)).2 = ((2:ℚ), (10:ℚ)).1 + 1 ∨
    (BitrateMap.mk
        [0, 0, 1000, 1000, 1000, 1000, 1000, 1000, 1000, 1000, 2000]
        10).bytes_between ((2:ℚ), (10:ℚ)).1 ((2:ℚ), (10:ℚ)).2 ≤
      effectiveMaxBytes 60 ∨
    ((2:ℚ), (10:ℚ)).2 = min ((BitrateMap.mk
        [0, 0, 1000, 1000, 1000, 1000, 1000, 1000, 1000, 1000, 2000]
        10).time_for_bytes ((2:ℚ), (10:ℚ)).1 (effectiveMaxBytes 60)) 10 :=
  claim_C3 5 10 60 0 []
    (BitrateMap.mk
      [0, 0, 1000, 1000, 1000, 1000, 1000, 1000, 1000, 1000, 2000] 10)
    [(0, 2), (2, 10)] (by norm_num) (by with_unfolding_all decide)
    ((2:ℚ), (10:ℚ)) (by simp)

/-! ## Claim C5 -/

/-- C5 counterexample: a run of `compute_cut_points_accurate` producing
the segment `(1.3, 2)` of length `0.7 < 1`, although
`duration - 1.3 = 8.7 ≥ 1`: the safety net only fires when the cut is
within `0.5` s of the cursor, so advances in `(0.5, 1)` do occur. -/
theorem claim_C5_counterexample :
    compute_cut_points_accurate 5 10 60 30 [SilenceInterval.mk (12/10) (14/10)]
        (BitrateMap.mk [0, 0, 58, 58, 58, 58, 58, 58, 58, 58, 116] 10) =
      some [(0, 13/10), (13/10, 2), (2, 10)] ∧
    (2 : ℚ) - 13/10 < 1 ∧ (1 : ℚ) ≤ 10 - 13/10 := by
  refine ⟨by with_unfolding_all decide, by norm_num, by norm_num⟩

/-- C5 (amended): for `duration > 0.1`, every segment produced by
`compute_cut_points_accurate` advances the cursor by MORE THAN `0.5`
seconds or ends at `duration` (and always by more than `0.1` s); the
original ≥ 1-second guarantee fails (see the counterexample) because the
safety net only fires when the candidate cut is within `0.5` s of the
cursor. -/
theorem claim_C5 (fuel : Nat) (d : ℚ) (mb : Nat) (tol : ℚ)
    (sil : List SilenceInterval) (bm : BitrateMap) (res : List (ℚ × ℚ))
    (hd : 1/10 < d)
    (h : compute_cut_points_accurate fuel d mb tol sil bm = some res) :
    ∀ p ∈ res, 1/10 < p.2 - p.1 ∧ (p.2 = d ∨ 1/2 < p.2 - p.1) := by
  rw [compute_cut_points_accurate] at h
  by_cases hdeg : d ≤ 0 ∨ mb = 0 ∨ bm.is_empty = true
  · rw [if_pos hdeg] at h
    have hres : res = [(0, max d 0)] := (Option.some_inj.mp h).symm
    subst hres
    intro p hp
    simp only [List.mem_singleton] at hp
    rw [hp, max_eq_left (by linarith : (0:ℚ) ≤ d)]
    exact ⟨by simpa using hd, Or.inl rfl⟩
  · rw [if_neg hdeg] at h
    by_cases hfit : bm.bytes_between 0 d ≤ effectiveMaxBytes mb
    · rw [if_pos hfit] at h
      have hres : res = [(0, d)] := (Option.some_inj.mp h).symm
      subst hres
      intro p hp
      simp only [List.mem_singleton] at hp
      rw [hp]
      exact ⟨by simpa using hd, Or.inl rfl⟩
    · rw [if_neg hfit] at h
      obtain ⟨tail, hres, _, _, _, hlen, _⟩ :=
        accurateLoop_spec d (effectiveMaxBytes mb) tol sil bm fuel 0 [] res h
      rw [List.nil_append] at hres
      subst hres
      intro p hp
      exact ⟨(hlen p hp).1.1, (hlen p hp).2⟩

/-- C5 witness: the amended theorem applied to the counterexample's
inputs at the short segment `(1.3, 2)`. -/
theorem claim_C5_witness :
    1/10 < ((13/10:ℚ), (2:ℚ)).2 - ((13/10:ℚ), (2:ℚ)).1 ∧
    (((13/10:ℚ), (2:ℚ)).2 = 10 ∨
      1/2 < ((13/10:ℚ), (2:ℚ)).2 - ((13/10:ℚ), (2:ℚ)).1) :=
  claim_C5 5 10 60 30 [SilenceInterval.mk (12/10) (14/10)]
    (BitrateMap.mk [0, 0, 58, 58, 58, 58, 58, 58, 58, 58, 116] 10)
    [(0, 13/10), (13/10, 2), (2, 10)] (by norm_num)
    (by with_unfolding_all decide) ((13/10:ℚ), (2:ℚ)) (by simp)

/-! ## Claim C6 -/

/-- Re-splitting a sub-segment that is a fixed point of the cut decision
collapses to a single piece, preserving everything but the label. -/
theorem auto_split_resplit (fuel₂ : Nat) (s : SplitSegment) (mb : Nat)
    (bps : ℚ) (bm : BitrateMap)
    (hfix : splitCutEnd bm (effectiveMaxBytes mb) s.end_time s.start_time =
      s.end_time)
    (hlen : s.start_time + 1/10 < s.end_time)
    (hsize : s.estimated_size_bytes =
      bm.bytes_between s.start_time s.end_time) :
    ∃ s', auto_split_segment (fuel₂ + 1) s mb bps (some bm) = some [s'] ∧
      s'.start_time = s.start_time ∧ s'.end_time = s.end_time ∧
      s'.enabled = s.enabled ∧
      s'.estimated_size_bytes = s.estimated_size_bytes := by
  by_cases h0 : mb = 0
  · exact ⟨s, by rw [auto_split_segment, if_pos h0], rfl, rfl, rfl, rfl⟩
  · by_cases hfit : auto_split_real_size s (some bm) ≤ mb
    · exact ⟨s, by rw [auto_split_segment, if_neg h0, if_pos hfit],
        rfl, rfl, rfl, rfl⟩
    · refine ⟨{ splitSub s bm s.start_time s.end_time 1 with
        label := s.label ++ " (" ++ toString (1:Nat) ++ "/" ++
          toString (1:Nat) ++ ")" }, ?_, rfl, rfl, rfl, hsize.symm⟩
      rw [auto_split_segment, if_neg h0, if_neg hfit, auto_split_oversized]
      rw [autoSplitLoop, if_pos (by linarith : s.start_time < s.end_time - 1/10)]
      rw [hfix]
      rw [if_pos (by linarith : s.end_time - 1/10 ≤ s.end_time)]
      rfl

set_option maxRecDepth 100000 in
/-- C6 counterexample: on a variable-bitrate map, `auto_split_segment`
produces a sub-segment that still exceeds the budget (1000 bytes against
60); re-applying it to that sub-segment returns a single piece with the
same times and size but a relabelled name (`"L (1/2) (1/1)"`), so the
re-application is NOT a no-op as the claim states. -/
theorem claim_C6_counterexample :
    auto_split_segment 20 (SplitSegment.mk 0 10 ("L") true 0) 60 0
        (some (BitrateMap.mk
          [0, 0, 1000, 1000, 1000, 1000, 1000, 1000, 1000, 1000, 2000] 10)) =
      some [SplitSegment.mk 0 2 ("L (1/2)") true 1000,
        SplitSegment.mk 2 10 ("L (2/2)") true 1000] ∧
    auto_split_segment 20 (SplitSegment.mk 0 2 ("L (1/2)") true 1000) 60 0
        (some (BitrateMap.mk
          [0, 0, 1000, 1000, 1000, 1000, 1000, 1000, 1000, 1000, 2000] 10)) =
      some [SplitSegment.mk 0 2 ("L (1/2) (1/1)") true 1000] ∧
    some [SplitSegment.mk 0 2 ("L (1/2) (1/1)") true 1000] ≠
      some [SplitSegment.mk 0 2 ("L (1/2)") true 1000] := by
  refine ⟨by with_unfolding_all decide, by with_unfolding_all decide,
    by with_unfolding_all decide⟩

/-- C6 (amended): (a) a segment already within budget (by real map size
or stored estimate) is returned unchanged as a one-element list, and
(b) so is any segment when `max_bytes = 0`; (c) re-applying the splitter
to an element of its own output is a no-op up to the label: with a
bitrate map it returns a single element with identical times, enabled
flag and size (the label gains a `" (1/1)"` suffix exactly when the
element still exceeds the budget — see the counterexample); without a
map (and a budget of at least 2 bytes, so the effective budget is
positive) the re-application returns the element literally unchanged. -/
theorem claim_C6 :
    (∀ (fuel : Nat) (seg : SplitSegment) (mb : Nat) (bps : ℚ)
      (bmo : Option BitrateMap),
      (mb = 0 ∨ auto_split_real_size seg bmo ≤ mb) →
      auto_split_segment fuel seg mb bps bmo = some [seg]) ∧
    (∀ (fuel : Nat) (seg : SplitSegment) (mb : Nat) (bps : ℚ)
      (bm : BitrateMap) (out : List SplitSegment),
      auto_split_segment fuel seg mb bps (some bm) = some out →
      ∀ s ∈ out, ∀ fuel₂ : Nat, ∃ s',
        auto_split_segment (fuel₂ + 1) s mb bps (some bm) = some [s'] ∧
        s'.start_time = s.start_time ∧ s'.end_time = s.end_time ∧
        s'.enabled = s.enabled ∧
        s'.estimated_size_bytes = s.estimated_size_bytes) ∧
    (∀ (fuel fuel₂ : Nat) (seg : SplitSegment) (mb : Nat) (bps : ℚ)
      (out : List SplitSegment),
      1 ≤ effectiveMaxBytes mb →
      auto_split_segment fuel seg mb bps none = some out →
      ∀ s ∈ out, auto_split_segment fuel₂ s mb bps none = some [s]) := by
  refine ⟨?_, ?_, ?_⟩
  · intro fuel seg mb bps bmo hsmall
    rcases hsmall with h0 | hfit
    · rw [auto_split_segment, if_pos h0]
    · by_cases h0 : mb = 0
      · rw [auto_split_segment, if_pos h0]
      · rw [auto_split_segment, if_neg h0, if_pos hfit]
  · intro fuel seg mb bps bm out hout s hs fuel₂
    rw [auto_split_segment] at hout
    by_cases h0 : mb = 0
    · rw [if_pos h0] at hout
      have hseq : out = [seg] := (Option.some_inj.mp hout).symm
      subst hseq
      simp only [List.mem_singleton] at hs
      subst hs
      exact ⟨s, by rw [auto_split_segment, if_pos h0], rfl, rfl, rfl, rfl⟩
    · rw [if_neg h0] at hout
      by_cases hfit : auto_split_real_size seg (some bm) ≤ mb
      · rw [if_pos hfit] at hout
        have hseq : out = [seg] := (Option.some_inj.mp hout).symm
        subst hseq
        simp only [List.mem_singleton] at hs
        subst hs
        exact ⟨s, by rw [auto_split_segment, if_neg h0, if_pos hfit],
          rfl, rfl, rfl, rfl⟩
      · rw [if_neg hfit, auto_split_oversized] at hout
        cases hloop : autoSplitLoop seg (effectiveMaxBytes mb) bm fuel
            seg.start_time 1 [] with
        | none => rw [hloop] at hout; cases hout
        | some result =>
          rw [hloop] at hout
          have hout' : out = relabelParts seg.label result :=
            (Option.some_inj.mp hout).symm
          subst hout'
          obtain ⟨y, hy, hst, hen, hena, hsz⟩ := relabelParts_mem hs
          obtain ⟨tail, htail, hinv⟩ :=
            autoSplitLoop_spec seg (effectiveMaxBytes mb) bm fuel
              seg.start_time 1 [] result hloop
          rw [List.nil_append] at htail
          subst htail
          obtain ⟨hyend, hyen, hysz, hylen, _⟩ := hinv y hy
          have hend : s.end_time =
              splitCutEnd bm (effectiveMaxBytes mb) seg.end_time
                s.start_time := by
            rw [hen, hst]
            exact hyend
          apply auto_split_resplit fuel₂ s mb bps bm
          · rw [hend]
            exact splitCutEnd_idem bm (effectiveMaxBytes mb) seg.end_time
              s.start_time
          · rw [hst, hen]
            exact hylen
          · rw [hsz, hst, hen]
            exact hysz
  · intro fuel fuel₂ seg mb bps out heff hout s hs
    have h0 : mb ≠ 0 := by
      intro habs
      rw [habs] at heff
      exact absurd heff (by with_unfolding_all decide)
    rw [auto_split_segment, if_neg h0] at hout
    by_cases hfit : auto_split_real_size seg none ≤ mb
    · rw [if_pos hfit] at hout
      have hseq : out = [seg] := (Option.some_inj.mp hout).symm
      subst hseq
      simp only [List.mem_singleton] at hs
      subst hs
      rw [auto_split_segment, if_neg h0, if_pos hfit]
    · rw [if_neg hfit, auto_split_oversized] at hout
      by_cases hbps : bps / 8 ≤ 0
      · rw [if_pos hbps] at hout
        have hseq : out = [seg] := (Option.some_inj.mp hout).symm
        subst hseq
        simp only [List.mem_singleton] at hs
        subst hs
        rw [auto_split_segment, if_neg h0]
        by_cases hfit2 : auto_split_real_size s none ≤ mb
        · rw [if_pos hfit2]
        · rw [if_neg hfit2, auto_split_oversized, if_pos hbps]
      · rw [if_neg hbps] at hout
        have hseq : out = uniformSplit seg (bps / 8)
            ((effectiveMaxBytes mb : ℚ) / (bps / 8))
            (ceilToNat (seg.seg_duration /
              ((effectiveMaxBytes mb : ℚ) / (bps / 8)))) :=
          (Option.some_inj.mp hout).symm
        subst hseq
        push_neg at hbps
        have hsz := uniformSplit_size_le seg (bps / 8) (effectiveMaxBytes mb)
          _ hbps s hs
        have hfit2 : auto_split_real_size s none ≤ mb :=
          le_trans hsz (effectiveMaxBytes_le mb)
        rw [auto_split_segment, if_neg h0, if_pos hfit2]

/-- C6 witness: clause (a) applied to a concrete within-budget
segment. -/
theorem claim_C6_witness :
    auto_split_segment 0 (SplitSegment.mk 0 5 ("a") true 10) 100 8 none =
      some [SplitSegment.mk 0 5 ("a") true 10] :=
  claim_C6.1 0 (SplitSegment.mk 0 5 ("a") true 10) 100 8 none
    (Or.inr (by with_unfolding_all decide))

/-! ## Claim C9 -/

/-- `restore_segments_for_current_file` touches only the editing-surface
fields (`segments`, `selected_segment`). -/
theorem restore_fields (s : BatchAppState) :
    (restore_segments_for_current_file s).batch_running = s.batch_running ∧
    (restore_segments_for_current_file s).batch_auto_export =
      s.batch_auto_export ∧
    (restore_segments_for_current_file s).export_invocations =
      s.export_invocations := by
  rw [restore_segments_for_current_file]
  split
  · split
    · exact ⟨rfl, rfl, rfl⟩
    · exact ⟨rfl, rfl, rfl⟩
  · exact ⟨rfl, rfl, rfl⟩

/-- A poll on a state whose batch is not running is the identity. -/
theorem poll_batch_not_running (fuel : Nat) (s : BatchAppState)
    (h : s.batch_running = false) : poll_batch fuel s = some s := by
  rw [poll_batch, if_pos h]

/-- C9 (confirmed): while fewer detection results have arrived than the
batch total — in any arrival order — `poll_batch` derives no segments
and writes nothing: only `batch_status` changes.  Once all results are
present it aggregates (clearing `batch_running`), and when the batch was
started in process-and-export mode the export step is triggered exactly
once: the aggregating poll increments the trigger count by one, clears
the one-shot flag, and every subsequent poll is the identity. -/
theorem claim_C9 :
    (∀ (fuel : Nat) (s : BatchAppState),
      s.batch_running = true → s.batch_results.length < s.batch_total →
      poll_batch fuel s = some { s with
        batch_status := "Analyzing " ++ toString s.batch_results.length ++
          "/" ++ toString s.batch_total ++ "..." } ∧
      ∀ s', poll_batch fuel s = some s' →
        s'.file_segments = s.file_segments ∧ s'.segments = s.segments ∧
        s'.batch_running = true ∧
        s'.batch_auto_export = s.batch_auto_export ∧
        s'.export_invocations = s.export_invocations) ∧
    (∀ (fuel : Nat) (s : BatchAppState), s.batch_running = false →
      poll_batch fuel s = some s) ∧
    (∀ (fuel : Nat) (s : BatchAppState) (s' : BatchAppState),
      s.batch_running = true → s.batch_total ≤ s.batch_results.length →
      poll_batch fuel s = some s' →
      s'.batch_running = false ∧ s'.batch_auto_export = false ∧
      s'.export_invocations = s.export_invocations +
        (if s.batch_auto_export then 1 else 0) ∧
      ∀ fuel₂, poll_batch fuel₂ s' = some s') := by
  have hrunfalse : ∀ s : BatchAppState, s.batch_running = true →
      ¬ s.batch_running = false := by
    intro s h habs
    rw [h] at habs
    cases habs
  refine ⟨?_, ?_, ?_⟩
  · intro fuel s hrun hlt
    have hpoll : poll_batch fuel s = some { s with
        batch_status := "Analyzing " ++ toString s.batch_results.length ++
          "/" ++ toString s.batch_total ++ "..." } := by
      rw [poll_batch, if_neg (hrunfalse s hrun), if_pos hlt]
    refine ⟨hpoll, ?_⟩
    intro s' hs'
    rw [hpoll] at hs'
    have := Option.some_inj.mp hs'
    rw [← this]
    exact ⟨rfl, rfl, hrun, rfl, rfl⟩
  · exact poll_batch_not_running
  · intro fuel s s' hrun hge hpoll
    rw [poll_batch, if_neg (hrunfalse s hrun),
      if_neg (by omega : ¬ s.batch_results.length < s.batch_total)] at hpoll
    cases haggr : aggregateResults fuel s.files
        (floorToNat (s.max_size_mb * 1024 * 1024)) s.batch_results
        s.file_segments 0 with
    | none => rw [haggr] at hpoll; cases hpoll
    | some p =>
      rw [haggr] at hpoll
      have hs' : s' = poll_batch_finish s p.1 p.2 := by
        have := Option.some_inj.mp hpoll
        rw [← this]
      subst hs'
      obtain ⟨hr, ha, hi⟩ := restore_fields { s with
        batch_running := false, batch_results := [], file_segments := p.1 }
      rw [poll_batch_finish]
      by_cases hauto : s.batch_auto_export = true
      · rw [if_pos hauto]
        refine ⟨?_, ?_, ?_, ?_⟩
        · simpa [export_all_files_trigger] using hr
        · simp [export_all_files_trigger]
        · rw [if_pos hauto]
          simp only [export_all_files_trigger]
          simpa using hi
        · intro fuel₂
          apply poll_batch_not_running
          simpa [export_all_files_trigger] using hr
      · rw [if_neg hauto]
        have hauto' : s.batch_auto_export = false := by
          cases hab : s.batch_auto_export
          · rfl
          · exact absurd hab hauto
        refine ⟨?_, ?_, ?_, ?_⟩
        · simpa using hr
        · simpa [hauto'] using ha
        · rw [if_neg hauto]
          simpa using hi
        · intro fuel₂
          apply poll_batch_not_running
          simpa using hr

/-- C9 witness: the identity clause applied to a concrete idle state,
and the pre-aggregation clause applied to a concrete running state with
one of three results present. -/
theorem claim_C9_witness :
    poll_batch 0 (BatchAppState.mk [] none [] none [] 25 false 3
      [(1, [])] ("x") false ("x") 0) =
      some (BatchAppState.mk [] none [] none [] 25 false 3
        [(1, [])] ("x") false ("x") 0) ∧
    poll_batch 0 (BatchAppState.mk [] none [] none [] 25 true 3
      [(1, [])] ("x") false ("x") 0) =
      some { BatchAppState.mk [] none [] none [] 25 true 3
        [(1, [])] ("x") false ("x") 0 with
        batch_status := "Analyzing " ++ toString (1:Nat) ++ "/" ++
          toString (3:Nat) ++ "..." } :=
  ⟨claim_C9.2.1 0 _ rfl,
    (claim_C9.1 0 (BatchAppState.mk [] none [] none [] 25 true 3
      [(1, [])] ("x") false ("x") 0) rfl (by decide)).1⟩

